import Mathlib

/-!
# proc-daemon: the reconciliation engine of `src/main.c`

A shallow embedding of the identity table (`Entry`, `List`), the membership
scan `in_log`, the bootstrap `sync_log` (with the `fscanf` calls it makes on
`LOG_FORMAT`), the reconciler `iterate` and the signal handler
`handle_signal`, followed by the properties proved about them.

Conventions of the embedding.

* A C `char` is a `Char`; a C string is a `List Char`, read up to its first
  NUL character (`cstr`).
* A C `int` is an `Int`; where the program converts between `int` and
  `unsigned int` (`%u`) the wrap-around modulo `2^32` is written out.
* `struct List` is called `LogList` (the name `List` is taken). Its `log`
  array is memory indexed by position, `Nat → Entry`: the C code never checks
  an index against `LOG_S`, so a store at index `empty_pos` is a store at that
  position of memory whether or not `empty_pos < LOG_S`. Entries at positions
  `≥ empty_pos` are never read by the program.
* A character array field (`cmd`, `user`) holds the bytes the program has
  written starting at the first byte of the field. The field is within its
  bounds when that list is no longer than the declared size of the field. A
  store that runs past its object is recorded as such; its effect on the
  neighbouring memory is not modelled, and the properties that speak of the
  state after `sync_log` are stated for the runs in which no store does so.
* The stream read by `sync_log` is the list of characters not yet read along
  with its end-of-file indicator.
-/

namespace ProcDaemon

/-! ## Constants -/

/-- Source: `#define CMD_S 64`. -/
def CMD_S : Nat := 64

/-- Source: `#define LOG_S 24000`. -/
def LOG_S : Nat := 24000

/-- The NUL character that ends a C string. -/
def NUL : Char := Char.ofNat 0

/-! ## Data model -/

/-- Source: `struct Entry { int tid; char cmd[CMD_S], user[USER_S]; }`.
`cmd` and `user` hold the bytes written into the field. -/
structure Entry where
  tid : Int
  cmd : List Char
  user : List Char
deriving DecidableEq, Repr

/-- Source: `struct List { int empty_pos; Entry log[LOG_S]; }`. -/
structure LogList where
  empty_pos : Nat
  log : Nat → Entry

/-- The fields of procps's `proc_t` that the program reads. -/
structure proc_t where
  tid : Int
  cmd : List Char
  euser : List Char
deriving DecidableEq, Repr

/-! ## C library functions used by the program -/

/-- The characters of a C string: everything before the first NUL. -/
def cstr (s : List Char) : List Char :=
  s.takeWhile (fun c => c != NUL)

/-- The `n` bytes `strncpy(dst, src, n)` writes to `dst`: the characters of
`src` up to `n` of them, then NUL padding up to `n` bytes in all. -/
def strncpy (src : List Char) (n : Nat) : List Char :=
  (cstr src).take n ++ List.replicate (n - (cstr src).length) NUL

/-- What `%u` prints for an `int` argument: the value read as an
`unsigned int`, in decimal. -/
def print_u (tid : Int) : List Char :=
  Nat.toDigits 10 (tid % 2 ^ 32).toNat

/-- The text of `fprintf(fptr, LOG_FORMAT, tid, cmd, euser)` with
`LOG_FORMAT = "%u:%s\t\t%s\n"`. -/
def fprintf_LOG_FORMAT (tid : Int) (cmd euser : List Char) : List Char :=
  print_u tid ++ [':'] ++ cstr cmd ++ ['\t', '\t'] ++ cstr euser ++ ['\n']

/-! ## in_log -/

/-- The loop of `in_log`: `i` is the loop variable and the first argument
counts the iterations left, `empty_pos - i`. -/
def in_log_loop (ls : LogList) (tid : Int) : Nat → Nat → Int
  | 0, _ => 0
  | n + 1, i => if (ls.log i).tid = tid then 1 else in_log_loop ls tid n (i + 1)

/-- Source: `int in_log(List* ls, int* tid)`. -/
def in_log (ls : LogList) (tid : Int) : Int :=
  in_log_loop ls tid ls.empty_pos 0

/-! ## iterate -/

/-- The stores both `iterate` and `sync_log` make for a new entry, followed by
`ls->empty_pos++`: `ls->log[ls->empty_pos]` receives `e`. No index check is
made in the source, and none is made here. -/
def store_entry (ls : LogList) (e : Entry) : LogList :=
  ⟨ls.empty_pos + 1, fun i => if i = ls.empty_pos then e else ls.log i⟩

/-- Source: `void iterate(proc_t* proc_info, List* ls)`. The snapshot is the
sequence of records `readproc` yields until it returns NULL; `file` is the
content of the log file behind `fptr`, opened for appending; `USER_S` is the
size of the `user` field (`P_G_SZ` of procps's `readproc.h`). -/
def iterate (USER_S : Nat) : List proc_t → LogList → List Char → LogList × List Char
  | [], ls, file => (ls, file)
  | p :: ps, ls, file =>
    if in_log ls p.tid ≠ 0 then iterate USER_S ps ls file
    else
      iterate USER_S ps
        (store_entry ls ⟨p.tid, strncpy p.cmd CMD_S, strncpy p.euser USER_S⟩)
        (file ++ fprintf_LOG_FORMAT p.tid p.cmd p.euser)

/-! ## The stream read by sync_log and the fscanf call on LOG_FORMAT

`fscanf` is modelled as glibc implements the C standard's directives: a
white-space directive and the leading white space of `%u` and `%s` read up to
the first character that is not white space, which stays unread, or until no
character is left, which sets the end-of-file indicator; a conversion that
meets the end of the input before its first character, or a literal that does
not match, ends the call and leaves the remaining arguments as they were. -/

/-- A stream open for reading: the characters not read yet and the
end-of-file indicator that `feof` tests. -/
structure FILE where
  buf : List Char
  eof : Bool
deriving DecidableEq, Repr

/-- The three locals of `sync_log` that `fscanf` stores into: `int tid`,
`char cmd[CMD_S]`, `char user[USER_S]`. `cmd` and `user` hold the bytes of
the last store into the buffer, the terminating NUL included. A list longer
than its buffer records a store that ran past the end of the buffer; what such
a store does to the neighbouring objects is not modelled. -/
structure Locals where
  tid : Int
  cmd : List Char
  user : List Char
deriving DecidableEq, Repr

/-- C's `isspace` in the "C" locale. -/
def isspace (c : Char) : Bool :=
  c = ' ' || c = '\t' || c = '\n' || c = Char.ofNat 11 || c = Char.ofNat 12 || c = '\r'

/-- C's `isdigit`. -/
def isdigit (c : Char) : Bool :=
  decide (48 ≤ c.toNat) && decide (c.toNat ≤ 57)

/-- Reading white space: up to the first character that is not white space
(it stays unread) or to the end of the input (the indicator is set). -/
def skip_space (fp : FILE) : FILE :=
  match fp.buf.dropWhile isspace with
  | [] => ⟨[], true⟩
  | c :: cs => ⟨c :: cs, fp.eof⟩

/-- The value `strtoul` gives the digits `ds` in base 10 with an optional
minus sign, for a 64-bit `unsigned long`: it saturates at `ULONG_MAX` and
negates modulo `2^64`. -/
def strtoul10 (neg : Bool) (ds : List Char) : Nat :=
  let n := ds.foldl (fun a c => 10 * a + (c.toNat - 48)) 0
  if 2 ^ 64 ≤ n then 2 ^ 64 - 1 else if neg then (2 ^ 64 - n) % 2 ^ 64 else n

/-- The `int` that results when `%u` stores the `unsigned int` conversion of
`u` through the pointer `&tid`. -/
def store_u (u : Nat) : Int :=
  if u % 2 ^ 32 < 2 ^ 31 then ((u % 2 ^ 32 : Nat) : Int) else ((u % 2 ^ 32 : Nat) : Int) - 2 ^ 32

/-- The `%u` directive: the stream afterwards and the value stored, `none`
when no conversion took place. -/
def scan_u (fp : FILE) : FILE × Option Int :=
  let fp1 := skip_space fp
  match fp1.buf with
  | [] => (fp1, none)
  | c :: cs =>
    let body := if c = '-' ∨ c = '+' then cs else c :: cs
    let ds := body.takeWhile isdigit
    let rest := body.dropWhile isdigit
    if ds = [] then (⟨body, fp1.eof || body.isEmpty⟩, none)
    else (⟨rest, fp1.eof || rest.isEmpty⟩, some (store_u (strtoul10 (decide (c = '-')) ds)))

/-- A literal character of the format: it is read and has to match. -/
def match_char (ch : Char) (fp : FILE) : FILE × Bool :=
  match fp.buf with
  | [] => (⟨[], true⟩, false)
  | c :: cs => if c = ch then (⟨cs, fp.eof⟩, true) else (fp, false)

/-- The `%s` directive (no field width): the stream afterwards and the bytes
stored, the token and its terminating NUL; `none` when the input ended before
a token began. -/
def scan_s (fp : FILE) : FILE × Option (List Char) :=
  let fp1 := skip_space fp
  match fp1.buf with
  | [] => (fp1, none)
  | c :: cs =>
    let tok := (c :: cs).takeWhile (fun x => !isspace x)
    let rest := (c :: cs).dropWhile (fun x => !isspace x)
    (⟨rest, fp1.eof || rest.isEmpty⟩, some (tok ++ [NUL]))

/-- Source: `fscanf(fptr, LOG_FORMAT, &tid, cmd, user)` with
`LOG_FORMAT = "%u:%s\t\t%s\n"`; the return value is discarded by the caller. -/
def fscanf_LOG_FORMAT (fp : FILE) (v : Locals) : FILE × Locals :=
  match scan_u fp with
  | (fp1, none) => (fp1, v)
  | (fp1, some t) =>
    match match_char ':' fp1 with
    | (fp2, false) => (fp2, { v with tid := t })
    | (fp2, true) =>
      match scan_s fp2 with
      | (fp3, none) => (fp3, { v with tid := t })
      | (fp3, some c) =>
        match scan_s (skip_space fp3) with
        | (fp4, none) => (fp4, { v with tid := t, cmd := c })
        | (fp4, some u) => (skip_space fp4, ⟨t, c, u⟩)

/-! ## sync_log -/

/-- The `while (!feof (fptr))` loop of `sync_log`. The first argument bounds
the number of iterations; the result is the table reached and whether the loop
has ended (`feof` was true at a loop test). -/
def sync_loop : Nat → FILE → Locals → LogList → LogList × Bool
  | 0, fp, _, ls => (ls, fp.eof)
  | n + 1, fp, v, ls =>
    if fp.eof then (ls, true)
    else
      let ls1 : LogList :=
        if in_log ls v.tid = 0 then
          store_entry ls ⟨v.tid, strncpy v.cmd CMD_S, strncpy v.user CMD_S⟩
        else ls
      let r := fscanf_LOG_FORMAT fp v
      sync_loop n r.1 r.2 ls1

/-- Source: `void sync_log(List* ls)`, for a log file that can be opened:
`content` is what `LOG_FILE` holds, `v0` the values the uninitialised locals
`tid`, `cmd`, `user` happen to have. The first argument bounds the number of
loop iterations. Each store is recorded on the object it is made into (a
local buffer, a field of the entry at `empty_pos`) with the bytes written. The
result is what the program computes as long as every store stays inside its
object or, for the `CMD_S` bytes written to a `user` field, inside the
allocated table (`sync_log_in_bounds`); past that point the result says which
store left its object and by how many bytes, and nothing else about the
program. -/
def sync_log (fuel : Nat) (content : List Char) (v0 : Locals) (ls : LogList) : LogList × Bool :=
  let r := fscanf_LOG_FORMAT ⟨content, false⟩ v0
  sync_loop fuel r.1 r.2 ls

/-- The lists held for the locals `cmd[CMD_S]` and `user[USER_S]` fit the
buffers. -/
def locals_fit (USER_S : Nat) (v : Locals) : Bool :=
  decide (v.cmd.length ≤ CMD_S) && decide (v.user.length ≤ USER_S)

/-- The locals `cmd` and `user` hold a NUL, so that the `strncpy` calls that
read them stop inside the buffers. -/
def locals_terminated (v : Locals) : Bool :=
  v.cmd.contains NUL && v.user.contains NUL

/-- The stores `sync_log` makes for a new entry stay inside the allocated
table: the index `empty_pos` is below `LOG_S`, and the `CMD_S` bytes written
to the field `user[USER_S]` either fit it or run on into the next element of
the array, which is not in use yet and has to exist. -/
def store_in_bounds (USER_S : Nat) (ls : LogList) : Bool :=
  decide (ls.empty_pos < LOG_S) &&
    (decide (CMD_S ≤ USER_S) || decide (ls.empty_pos + 1 < LOG_S))

/-- Whether the loop of `sync_log`, run as `sync_loop` runs it, keeps every
store inside its object: the locals fit their buffers at each loop test (no
`fscanf` stored a token longer than the buffer), and each entry stored is read
from terminated locals and written inside the allocated table. -/
def sync_loop_in_bounds (USER_S : Nat) : Nat → FILE → Locals → LogList → Bool
  | 0, _, v, _ => locals_fit USER_S v
  | n + 1, fp, v, ls =>
    locals_fit USER_S v &&
      (if fp.eof then true
      else if in_log ls v.tid = 0 then
        locals_terminated v && store_in_bounds USER_S ls &&
          sync_loop_in_bounds USER_S n (fscanf_LOG_FORMAT fp v).1 (fscanf_LOG_FORMAT fp v).2
            (store_entry ls ⟨v.tid, strncpy v.cmd CMD_S, strncpy v.user CMD_S⟩)
      else
        sync_loop_in_bounds USER_S n (fscanf_LOG_FORMAT fp v).1 (fscanf_LOG_FORMAT fp v).2 ls)

/-- Whether the run `sync_log fuel content v0 ls` keeps every store inside its
object, where `USER_S` is the size of the `user` buffer and field. -/
def sync_log_in_bounds (USER_S fuel : Nat) (content : List Char) (v0 : Locals)
    (ls : LogList) : Bool :=
  locals_fit USER_S v0 &&
    sync_loop_in_bounds USER_S fuel (fscanf_LOG_FORMAT ⟨content, false⟩ v0).1
      (fscanf_LOG_FORMAT ⟨content, false⟩ v0).2 ls

/-- A table with no entry: `empty_pos = 0`; the array is as allocated. -/
def emptyList : LogList := ⟨0, fun _ => ⟨0, [], []⟩⟩

/-! ## handle_signal and the poll loop of main -/

/-- Linux's number for the hangup signal (`signal.h`). -/
def SIGHUP : Int := 1

/-- Linux's number for the interrupt signal (`signal.h`). -/
def SIGINT : Int := 2

/-- Linux's number for the child-reaped signal (`signal.h`). -/
def SIGCHLD : Int := 17

/-- What `signal` can install for a signal: the default action, ignoring it,
or the function `handle_signal`. -/
inductive Disposition where
  | SIG_DFL
  | SIG_IGN
  | handler
deriving DecidableEq, Repr

/-- The calls and the store `handle_signal` makes, used to record their order. -/
inductive Effect where
  | fprintf_log_stream (text : String)
  | lockf_F_ULOCK (fd : Int)
  | close (fd : Int)
  | unlink (name : String)
  | store_running (value : Int)
  | signal (sig : Int) (d : Disposition)
deriving DecidableEq, Repr

/-- The globals `handle_signal` touches (`running`, `pid_fd`,
`pid_file_name`, with `none` for NULL), what the calls it makes act on
(whether the advisory lock on the lock file is held, whether the lock file
exists, the disposition of SIGINT), and the record of the calls made so far,
oldest first. The calls are taken to succeed. -/
structure Daemon where
  running : Int
  pid_fd : Int
  pid_file_name : Option String
  lock_held : Bool
  lock_file : Bool
  sigint : Disposition
  done : List Effect
deriving DecidableEq, Repr

/-- The statement `fprintf(log_stream, text)`. -/
def log_debug (text : String) (d : Daemon) : Daemon :=
  { d with done := d.done ++ [Effect.fprintf_log_stream text] }

/-- The statement `if (pid_fd != -1) { lockf(pid_fd, F_ULOCK, 0); close(pid_fd); }`. -/
def release_lock (d : Daemon) : Daemon :=
  if d.pid_fd ≠ -1 then
    { d with
      lock_held := false
      done := d.done ++ [Effect.lockf_F_ULOCK d.pid_fd, Effect.close d.pid_fd] }
  else d

/-- The statement `if (pid_file_name != NULL) { unlink(pid_file_name); }`. -/
def delete_lock_file (d : Daemon) : Daemon :=
  match d.pid_file_name with
  | some name => { d with lock_file := false, done := d.done ++ [Effect.unlink name] }
  | none => d

/-- The statement `running = 0;`. -/
def stop_running (d : Daemon) : Daemon :=
  { d with running := 0, done := d.done ++ [Effect.store_running 0] }

/-- Source: `void handle_signal(int sig)`. -/
def handle_signal (sig : Int) (d : Daemon) : Daemon :=
  if sig = SIGINT then
    let d1 := log_debug "Debug: stopping daemon ...\n" d
    let d2 := release_lock d1
    let d3 := delete_lock_file d2
    let d4 := stop_running d3
    { d4 with
      sigint := Disposition.SIG_DFL
      done := d4.done ++ [Effect.signal SIGINT Disposition.SIG_DFL] }
  else if sig = SIGHUP then log_debug "Debug: received SIGHUP signal ...\n" d
  else if sig = SIGCHLD then log_debug "Debug: received SIGCHLD signal ...\n" d
  else d

/-- The signals whose disposition the program sets (`main`, lines 377-383,
and `daemonize`, line 137). -/
inductive Signal where
  | SIGHUP
  | SIGINT
  | SIGILL
  | SIGABRT
  | SIGFPE
  | SIGSEGV
  | SIGTERM
  | SIGCHLD
deriving DecidableEq, Repr

/-- The state of the process while the poll loop runs: the globals and lock of
`Daemon`, the disposition of SIGHUP (`main` installs `handle_signal` for
SIGINT and SIGHUP), the table and the content of the log file. -/
structure Process where
  daemon : Daemon
  sighup : Disposition
  ls : LogList
  file : List Char

/-- The delivery of a signal to the process, `none` when it terminates the
process. A signal whose disposition is `handle_signal` runs the handler, which
returns to the code it interrupted; `oneshot` says whether `signal` installs a
handler with System V semantics, the disposition being reset to `SIG_DFL` when
the signal is delivered (glibc does so when `_XOPEN_SOURCE` is defined, as at
the top of the source). SIGINT and SIGHUP at `SIG_DFL`, and SIGTERM and
SIGABRT, which `main` sets to `SIG_DFL`, terminate the process. SIGFPE, SIGILL
and SIGSEGV, set to `SIG_IGN` and sent by another process, and SIGCHLD, ignored
by `daemonize` and by default, have no effect. -/
def deliver (oneshot : Bool) (sig : Signal) (s : Process) : Option Process :=
  match sig with
  | Signal.SIGINT =>
    match s.daemon.sigint with
    | Disposition.handler =>
      some { s with
        daemon := handle_signal SIGINT
          { s.daemon with
            sigint := if oneshot then Disposition.SIG_DFL else Disposition.handler } }
    | Disposition.SIG_IGN => some s
    | Disposition.SIG_DFL => none
  | Signal.SIGHUP =>
    match s.sighup with
    | Disposition.handler =>
      some { s with
        sighup := if oneshot then Disposition.SIG_DFL else Disposition.handler
        daemon := handle_signal SIGHUP s.daemon }
    | Disposition.SIG_IGN => some s
    | Disposition.SIG_DFL => none
  | Signal.SIGTERM => none
  | Signal.SIGABRT => none
  | Signal.SIGILL => some s
  | Signal.SIGFPE => some s
  | Signal.SIGSEGV => some s
  | Signal.SIGCHLD => some s

/-- What happens, one after the other, between two tests of `running`:
`readproc` yields a record and the body of the loop of `iterate` runs on it,
or a signal is delivered (during `fopen`, between two records, during
`fclose` or `sleep`). A handler that runs inside the body for a record writes
neither the table nor `fptr`, so it has the effect of one that runs just
before or after it; a signal that terminates the process inside the body
leaves that record half done, as it leaves the pass. -/
inductive Step where
  | readproc (p : proc_t)
  | signal (sig : Signal)

/-- The snapshot of a pass: the records `readproc` yields during it, in order. -/
def snapshot_of : List Step → List proc_t
  | [] => []
  | Step.readproc p :: rest => p :: snapshot_of rest
  | Step.signal _ :: rest => snapshot_of rest

/-- One pass of the poll loop, `fptr = fopen(LOG_FILE, "a"); iterate(&proc_info,
ls); fclose(fptr); sleep(delay);`, with the signals delivered during it. The
result is the state reached and whether a signal terminated the process, in
which case the rest of the pass did not run. -/
def run_pass (oneshot : Bool) (USER_S : Nat) : List Step → Process → Process × Bool
  | [], s => (s, false)
  | Step.readproc p :: rest, s =>
    run_pass oneshot USER_S rest
      { s with
        ls := (iterate USER_S [p] s.ls s.file).1
        file := (iterate USER_S [p] s.ls s.file).2 }
  | Step.signal sig :: rest, s =>
    match deliver oneshot sig s with
    | none => (s, true)
    | some s1 => run_pass oneshot USER_S rest s1

/-- How a run of the poll loop ends: the loop test failed, a signal terminated
the process, or the passes supplied ran out with the loop still going. -/
inductive Outcome where
  | exited
  | killed
  | running
deriving DecidableEq, Repr

/-- Source: the main loop `while (running == 1) { fptr = fopen(LOG_FILE, "a");
iterate(&proc_info, ls); fclose(fptr); sleep(delay); }`, run over the passes
the environment supplies. -/
def main_loop (oneshot : Bool) (USER_S : Nat) : List (List Step) → Process → Outcome × Process
  | [], s => (if s.daemon.running = 1 then Outcome.running else Outcome.exited, s)
  | t :: ts, s =>
    if s.daemon.running = 1 then
      match run_pass oneshot USER_S t s with
      | (s1, true) => (Outcome.killed, s1)
      | (s1, false) => main_loop oneshot USER_S ts s1
    else (Outcome.exited, s)

/-- The reconciliations of a sequence of snapshots, each run to its end, one
after the other. -/
def reconcile (USER_S : Nat) : List (List proc_t) → LogList → List Char → LogList × List Char
  | [], ls, file => (ls, file)
  | snap :: rest, ls, file =>
    reconcile USER_S rest (iterate USER_S snap ls file).1 (iterate USER_S snap ls file).2

/-! ## Vocabulary of the properties -/

/-- The snapshot tuples whose process id is neither contained in the table
`S` nor carried by one of the tuples `earlier` in the same snapshot, in
snapshot order. -/
def unseen (S : LogList) : List proc_t → List proc_t → List proc_t
  | _, [] => []
  | earlier, t :: ts =>
    if in_log S t.tid = 0 ∧ ∀ u ∈ earlier, u.tid ≠ t.tid then
      t :: unseen S (earlier ++ [t]) ts
    else unseen S (earlier ++ [t]) ts

/-- The lines `"<processId>:<command>\t\t<user>\n"` of a list of tuples, one
after the other. -/
def log_lines (ts : List proc_t) : List Char :=
  (ts.map (fun t => fprintf_LOG_FORMAT t.tid t.cmd t.euser)).flatten

/-- The entries below `empty_pos` have pairwise distinct process ids. -/
def unique_tids (ls : LogList) : Prop :=
  ∀ i, i < ls.empty_pos → ∀ j, j < ls.empty_pos → (ls.log i).tid = (ls.log j).tid → i = j

instance (ls : LogList) : Decidable (unique_tids ls) := by
  unfold unique_tids
  infer_instance

/-- A table at capacity: `empty_pos = LOG_S`, the entry at index `i` carrying
the process id `i`. -/
def fullList : LogList := ⟨LOG_S, fun i => ⟨(i : Int), [], []⟩⟩

/-- A tuple whose line `sync_log` can read back: the process id is in the range
of `int`, command and user are not empty and contain neither white space nor
NUL. -/
def clean (t : proc_t) : Prop :=
  -2 ^ 31 ≤ t.tid ∧ t.tid < 2 ^ 31 ∧ t.cmd ≠ [] ∧ t.euser ≠ [] ∧
  (∀ c ∈ t.cmd, isspace c = false ∧ c ≠ NUL) ∧ (∀ c ∈ t.euser, isspace c = false ∧ c ≠ NUL)

instance (t : proc_t) : Decidable (clean t) := by
  unfold clean
  infer_instance

/-- The command and the user of a tuple, with their terminating NUL, fit the
buffers `cmd[CMD_S]` and `user[USER_S]` of `sync_log`. -/
def fits (USER_S : Nat) (t : proc_t) : Prop :=
  t.cmd.length < CMD_S ∧ t.euser.length < USER_S

instance (USER_S : Nat) (t : proc_t) : Decidable (fits USER_S t) := by
  unfold fits
  infer_instance

/-- The text is empty or starts with a character that is not white space. -/
def starts_clean (rest : List Char) : Prop :=
  ∀ c cs, rest = c :: cs → isspace c = false

/-- The table that results from storing the tuples one after the other the way
`sync_log` stores what it has read: a tuple whose id is in the table is
skipped. -/
def load (ls : LogList) : List proc_t → LogList
  | [] => ls
  | t :: ts =>
    load (if in_log ls t.tid = 0 then
        store_entry ls ⟨t.tid, strncpy (t.cmd ++ [NUL]) CMD_S, strncpy (t.euser ++ [NUL]) CMD_S⟩
      else ls) ts

/-! ## Lemmas on in_log and store_entry -/

theorem in_log_loop_cases (ls : LogList) (p : Int) :
    ∀ n i, in_log_loop ls p n i = 0 ∨ in_log_loop ls p n i = 1 := by
  intro n
  induction n with
  | zero => intro i; left; rfl
  | succ n ih =>
    intro i
    unfold in_log_loop
    split
    · right; rfl
    · exact ih (i + 1)

theorem in_log_loop_eq_one_iff (ls : LogList) (p : Int) :
    ∀ n i, in_log_loop ls p n i = 1 ↔ ∃ j, i ≤ j ∧ j < i + n ∧ (ls.log j).tid = p := by
  intro n
  induction n with
  | zero =>
    intro i
    constructor
    · intro h; simp [in_log_loop] at h
    · rintro ⟨j, h1, h2, _⟩; omega
  | succ n ih =>
    intro i
    unfold in_log_loop
    by_cases h : (ls.log i).tid = p
    · simp only [h, if_true, true_iff]
      exact ⟨i, le_refl i, by omega, h⟩
    · simp only [h, if_false]
      rw [ih (i + 1)]
      constructor
      · rintro ⟨j, h1, h2, h3⟩
        exact ⟨j, by omega, by omega, h3⟩
      · rintro ⟨j, h1, h2, h3⟩
        have hne : j ≠ i := fun e => h (e ▸ h3)
        exact ⟨j, by omega, by omega, h3⟩

theorem in_log_cases (ls : LogList) (p : Int) : in_log ls p = 0 ∨ in_log ls p = 1 :=
  in_log_loop_cases ls p ls.empty_pos 0

theorem in_log_eq_one_iff (ls : LogList) (p : Int) :
    in_log ls p = 1 ↔ ∃ i, i < ls.empty_pos ∧ (ls.log i).tid = p := by
  unfold in_log
  rw [in_log_loop_eq_one_iff]
  constructor
  · rintro ⟨j, _, h2, h3⟩
    exact ⟨j, by omega, h3⟩
  · rintro ⟨j, h2, h3⟩
    exact ⟨j, Nat.zero_le j, by omega, h3⟩

theorem in_log_ne_zero_iff (ls : LogList) (p : Int) : in_log ls p ≠ 0 ↔ in_log ls p = 1 := by
  rcases in_log_cases ls p with h | h <;> simp [h]

theorem in_log_eq_zero_iff (ls : LogList) (p : Int) :
    in_log ls p = 0 ↔ ∀ i, i < ls.empty_pos → (ls.log i).tid ≠ p := by
  constructor
  · intro h i hi hp
    have h1 : in_log ls p = 1 := (in_log_eq_one_iff ls p).2 ⟨i, hi, hp⟩
    rw [h] at h1
    exact absurd h1 (by decide)
  · intro h
    rcases in_log_cases ls p with h0 | h1
    · exact h0
    · obtain ⟨i, hi, hp⟩ := (in_log_eq_one_iff ls p).1 h1
      exact absurd hp (h i hi)

theorem store_entry_empty_pos (ls : LogList) (e : Entry) :
    (store_entry ls e).empty_pos = ls.empty_pos + 1 := rfl

theorem store_entry_log_old (ls : LogList) (e : Entry) (i : Nat) (h : i < ls.empty_pos) :
    (store_entry ls e).log i = ls.log i := by
  have hne : i ≠ ls.empty_pos := by omega
  simp [store_entry, hne]

theorem store_entry_log_new (ls : LogList) (e : Entry) :
    (store_entry ls e).log ls.empty_pos = e := by
  simp [store_entry]

theorem in_log_store_entry (ls : LogList) (e : Entry) (p : Int) :
    in_log (store_entry ls e) p = 1 ↔ in_log ls p = 1 ∨ e.tid = p := by
  rw [in_log_eq_one_iff, in_log_eq_one_iff, store_entry_empty_pos]
  constructor
  · rintro ⟨i, hi, hp⟩
    by_cases hlt : i < ls.empty_pos
    · left
      rw [store_entry_log_old ls e i hlt] at hp
      exact ⟨i, hlt, hp⟩
    · right
      have hi2 : i = ls.empty_pos := by omega
      rw [hi2, store_entry_log_new] at hp
      exact hp
  · rintro (⟨i, hi, hp⟩ | h)
    · exact ⟨i, by omega, by rw [store_entry_log_old ls e i hi]; exact hp⟩
    · exact ⟨ls.empty_pos, by omega, by rw [store_entry_log_new]; exact h⟩

theorem iterate_nil (U : Nat) (ls : LogList) (file : List Char) :
    iterate U [] ls file = (ls, file) := rfl

theorem iterate_cons_known (U : Nat) (t : proc_t) (ts : List proc_t) (ls : LogList)
    (file : List Char) (h : in_log ls t.tid = 1) :
    iterate U (t :: ts) ls file = iterate U ts ls file := by
  have hne : in_log ls t.tid ≠ 0 := by rw [h]; decide
  simp [iterate, hne]

theorem iterate_cons_new (U : Nat) (t : proc_t) (ts : List proc_t) (ls : LogList)
    (file : List Char) (h : in_log ls t.tid = 0) :
    iterate U (t :: ts) ls file =
      iterate U ts (store_entry ls ⟨t.tid, strncpy t.cmd CMD_S, strncpy t.euser U⟩)
        (file ++ fprintf_LOG_FORMAT t.tid t.cmd t.euser) := by
  simp [iterate, h]

theorem iterate_in_log (U : Nat) (snap : List proc_t) :
    ∀ (ls : LogList) (file : List Char) (p : Int),
      in_log (iterate U snap ls file).1 p = 1 ↔ in_log ls p = 1 ∨ ∃ t ∈ snap, t.tid = p := by
  induction snap with
  | nil => intro ls file p; simp [iterate_nil]
  | cons t ts ih =>
    intro ls file p
    rcases in_log_cases ls t.tid with h | h
    · rw [iterate_cons_new U t ts ls file h, ih, in_log_store_entry]
      simp only [List.mem_cons, exists_eq_or_imp]
      tauto
    · rw [iterate_cons_known U t ts ls file h, ih]
      simp only [List.mem_cons, exists_eq_or_imp]
      constructor
      · rintro (h1 | h1)
        · exact Or.inl h1
        · exact Or.inr (Or.inr h1)
      · rintro (h1 | h1 | h1)
        · exact Or.inl h1
        · exact Or.inl (h1 ▸ h)
        · exact Or.inr h1

theorem iterate_frame (U : Nat) (snap : List proc_t) :
    ∀ (ls : LogList) (file : List Char),
      ls.empty_pos ≤ (iterate U snap ls file).1.empty_pos ∧
      ∀ i, i < ls.empty_pos → (iterate U snap ls file).1.log i = ls.log i := by
  induction snap with
  | nil => intro ls file; simp [iterate_nil]
  | cons t ts ih =>
    intro ls file
    rcases in_log_cases ls t.tid with h | h
    · rw [iterate_cons_new U t ts ls file h]
      obtain ⟨h1, h2⟩ := ih (store_entry ls ⟨t.tid, strncpy t.cmd CMD_S, strncpy t.euser U⟩)
        (file ++ fprintf_LOG_FORMAT t.tid t.cmd t.euser)
      rw [store_entry_empty_pos] at h1 h2
      refine ⟨by omega, fun i hi => ?_⟩
      rw [h2 i (by omega), store_entry_log_old ls _ i hi]
    · rw [iterate_cons_known U t ts ls file h]
      exact ih ls file

theorem iterate_known (U : Nat) (snap : List proc_t) :
    ∀ (ls : LogList) (file : List Char), (∀ t ∈ snap, in_log ls t.tid = 1) →
      iterate U snap ls file = (ls, file) := by
  induction snap with
  | nil => intro ls file _; rfl
  | cons t ts ih =>
    intro ls file h
    rw [iterate_cons_known U t ts ls file (h t (List.mem_cons_self t ts))]
    exact ih ls file (fun u hu => h u (List.mem_cons_of_mem t hu))

theorem iterate_new_entries (U : Nat) (snap : List proc_t) :
    ∀ (ls : LogList) (file : List Char) (i : Nat), ls.empty_pos ≤ i →
      i < (iterate U snap ls file).1.empty_pos →
      in_log ls ((iterate U snap ls file).1.log i).tid = 0 := by
  induction snap with
  | nil => intro ls file i h1 h2; simp [iterate_nil] at h2; omega
  | cons t ts ih =>
    intro ls file i h1 h2
    rcases in_log_cases ls t.tid with h | h
    · rw [iterate_cons_new U t ts ls file h] at h2 ⊢
      by_cases hi : i = ls.empty_pos
      · have hf := (iterate_frame U ts
          (store_entry ls ⟨t.tid, strncpy t.cmd CMD_S, strncpy t.euser U⟩)
          (file ++ fprintf_LOG_FORMAT t.tid t.cmd t.euser)).2 i
          (by rw [store_entry_empty_pos]; omega)
        rw [hf, hi, store_entry_log_new]
        exact h
      · have h3 := ih (store_entry ls ⟨t.tid, strncpy t.cmd CMD_S, strncpy t.euser U⟩)
          (file ++ fprintf_LOG_FORMAT t.tid t.cmd t.euser) i
          (by rw [store_entry_empty_pos]; omega) h2
        rcases in_log_cases ls ((iterate U ts
          (store_entry ls ⟨t.tid, strncpy t.cmd CMD_S, strncpy t.euser U⟩)
          (file ++ fprintf_LOG_FORMAT t.tid t.cmd t.euser)).1.log i).tid with h4 | h4
        · exact h4
        · have h5 := (in_log_store_entry ls ⟨t.tid, strncpy t.cmd CMD_S, strncpy t.euser U⟩ _).2
            (Or.inl h4)
          rw [h3] at h5
          exact absurd h5 (by decide)
    · rw [iterate_cons_known U t ts ls file h] at h2 ⊢
      exact ih ls file i h1 h2

theorem log_lines_cons (t : proc_t) (ts : List proc_t) :
    log_lines (t :: ts) = fprintf_LOG_FORMAT t.tid t.cmd t.euser ++ log_lines ts := by
  simp [log_lines]

theorem iterate_output (U : Nat) (S : LogList) (snap : List proc_t) :
    ∀ (earlier : List proc_t) (ls : LogList) (file : List Char),
      (∀ p, in_log ls p = 1 ↔ in_log S p = 1 ∨ ∃ u ∈ earlier, u.tid = p) →
      (iterate U snap ls file).2 = file ++ log_lines (unseen S earlier snap) := by
  induction snap with
  | nil => intro earlier ls file _; simp [iterate_nil, unseen, log_lines]
  | cons t ts ih =>
    intro earlier ls file hrel
    rcases in_log_cases ls t.tid with h | h
    · have hS : in_log S t.tid = 0 ∧ ∀ u ∈ earlier, u.tid ≠ t.tid := by
        constructor
        · rcases in_log_cases S t.tid with h0 | h1
          · exact h0
          · have := (hrel t.tid).2 (Or.inl h1)
            rw [h] at this
            exact absurd this (by decide)
        · intro u hu he
          have := (hrel t.tid).2 (Or.inr ⟨u, hu, he⟩)
          rw [h] at this
          exact absurd this (by decide)
      rw [iterate_cons_new U t ts ls file h]
      have hrel2 : ∀ p, in_log (store_entry ls ⟨t.tid, strncpy t.cmd CMD_S, strncpy t.euser U⟩) p = 1
          ↔ in_log S p = 1 ∨ ∃ u ∈ earlier ++ [t], u.tid = p := by
        intro p
        rw [in_log_store_entry, hrel p]
        simp only [List.mem_append, List.mem_singleton]
        constructor
        · rintro ((h1 | ⟨u, hu, he⟩) | h1)
          · exact Or.inl h1
          · exact Or.inr ⟨u, Or.inl hu, he⟩
          · exact Or.inr ⟨t, Or.inr rfl, h1⟩
        · rintro (h1 | ⟨u, hu | hu, he⟩)
          · exact Or.inl (Or.inl h1)
          · exact Or.inl (Or.inr ⟨u, hu, he⟩)
          · exact Or.inr (hu ▸ he)
      rw [ih (earlier ++ [t]) _ _ hrel2]
      have hun : unseen S earlier (t :: ts) = t :: unseen S (earlier ++ [t]) ts := by
        simp only [unseen]
        rw [if_pos hS]
      rw [hun, log_lines_cons, List.append_assoc]
    · have hS : ¬ (in_log S t.tid = 0 ∧ ∀ u ∈ earlier, u.tid ≠ t.tid) := by
        rintro ⟨h0, hall⟩
        rcases (hrel t.tid).1 h with h1 | ⟨u, hu, he⟩
        · rw [h0] at h1
          exact absurd h1 (by decide)
        · exact hall u hu he
      rw [iterate_cons_known U t ts ls file h]
      have hrel2 : ∀ p, in_log ls p = 1 ↔ in_log S p = 1 ∨ ∃ u ∈ earlier ++ [t], u.tid = p := by
        intro p
        rw [hrel p]
        simp only [List.mem_append, List.mem_singleton]
        constructor
        · rintro (h1 | ⟨u, hu, he⟩)
          · exact Or.inl h1
          · exact Or.inr ⟨u, Or.inl hu, he⟩
        · rintro (h1 | ⟨u, hu | hu, he⟩)
          · exact Or.inl h1
          · exact Or.inr ⟨u, hu, he⟩
          · exact (hrel p).1 (by rw [← he, hu]; exact h)
      rw [ih (earlier ++ [t]) ls file hrel2]
      have hun : unseen S earlier (t :: ts) = unseen S (earlier ++ [t]) ts := by
        simp only [unseen]
        rw [if_neg hS]
      rw [hun]

theorem unseen_spec (S : LogList) (snap : List proc_t) :
    ∀ (earlier : List proc_t),
      (∀ t ∈ unseen S earlier snap,
        in_log S t.tid = 0 ∧ (∀ u ∈ earlier, u.tid ≠ t.tid) ∧ t ∈ snap) ∧
      ((unseen S earlier snap).map proc_t.tid).Nodup := by
  induction snap with
  | nil => intro earlier; simp [unseen]
  | cons t ts ih =>
    intro earlier
    obtain ⟨ih1, ih2⟩ := ih (earlier ++ [t])
    by_cases hS : in_log S t.tid = 0 ∧ ∀ u ∈ earlier, u.tid ≠ t.tid
    · have hun : unseen S earlier (t :: ts) = t :: unseen S (earlier ++ [t]) ts := by
        simp only [unseen]
        rw [if_pos hS]
      rw [hun]
      constructor
      · intro x hx
        rcases List.mem_cons.1 hx with hx | hx
        · subst hx
          exact ⟨hS.1, hS.2, List.mem_cons_self _ _⟩
        · obtain ⟨a, b, c⟩ := ih1 x hx
          exact ⟨a, fun u hu => b u (List.mem_append_left _ hu), List.mem_cons_of_mem _ c⟩
      · rw [List.map_cons, List.nodup_cons]
        refine ⟨?_, ih2⟩
        intro hmem
        obtain ⟨x, hx, hxe⟩ := List.mem_map.1 hmem
        exact (ih1 x hx).2.1 t (by simp) hxe.symm
    · have hun : unseen S earlier (t :: ts) = unseen S (earlier ++ [t]) ts := by
        simp only [unseen]
        rw [if_neg hS]
      rw [hun]
      refine ⟨fun x hx => ?_, ih2⟩
      obtain ⟨a, b, c⟩ := ih1 x hx
      exact ⟨a, fun u hu => b u (List.mem_append_left _ hu), List.mem_cons_of_mem _ c⟩

/-! ## Lemmas on sync_log -/

theorem strncpy_length (src : List Char) (n : Nat) : (strncpy src n).length = n := by
  simp only [strncpy, List.length_append, List.length_take, List.length_replicate]
  omega

theorem unique_tids_emptyList : unique_tids emptyList :=
  fun i hi _ _ _ => absurd hi (Nat.not_lt_zero i)

theorem sync_loop_eof (n : Nat) (fp : FILE) (v : Locals) (ls : LogList) (h : fp.eof = true) :
    sync_loop n fp v ls = (ls, true) := by
  cases n <;> simp [sync_loop, h]

theorem sync_loop_zero (fp : FILE) (v : Locals) (ls : LogList) :
    sync_loop 0 fp v ls = (ls, fp.eof) := rfl

theorem sync_loop_succ_new (n : Nat) (fp : FILE) (v : Locals) (ls : LogList)
    (h : fp.eof = false) (hn : in_log ls v.tid = 0) :
    sync_loop (n + 1) fp v ls =
      sync_loop n (fscanf_LOG_FORMAT fp v).1 (fscanf_LOG_FORMAT fp v).2
        (store_entry ls ⟨v.tid, strncpy v.cmd CMD_S, strncpy v.user CMD_S⟩) := by
  simp [sync_loop, h, hn]

theorem sync_loop_succ_known (n : Nat) (fp : FILE) (v : Locals) (ls : LogList)
    (h : fp.eof = false) (hn : in_log ls v.tid = 1) :
    sync_loop (n + 1) fp v ls =
      sync_loop n (fscanf_LOG_FORMAT fp v).1 (fscanf_LOG_FORMAT fp v).2 ls := by
  have hne : in_log ls v.tid ≠ 0 := by rw [hn]; decide
  simp [sync_loop, h, hne]

theorem sync_loop_frame (n : Nat) :
    ∀ (fp : FILE) (v : Locals) (ls : LogList),
      ls.empty_pos ≤ (sync_loop n fp v ls).1.empty_pos ∧
      ∀ i, i < ls.empty_pos → (sync_loop n fp v ls).1.log i = ls.log i := by
  induction n with
  | zero => intro fp v ls; simp [sync_loop_zero]
  | succ n ih =>
    intro fp v ls
    cases he : fp.eof with
    | true => simp [sync_loop_eof _ fp v ls he]
    | false =>
      rcases in_log_cases ls v.tid with h | h
      · rw [sync_loop_succ_new n fp v ls he h]
        obtain ⟨h1, h2⟩ := ih (fscanf_LOG_FORMAT fp v).1 (fscanf_LOG_FORMAT fp v).2
          (store_entry ls ⟨v.tid, strncpy v.cmd CMD_S, strncpy v.user CMD_S⟩)
        rw [store_entry_empty_pos] at h1 h2
        refine ⟨by omega, fun i hi => ?_⟩
        rw [h2 i (by omega), store_entry_log_old ls _ i hi]
      · rw [sync_loop_succ_known n fp v ls he h]
        exact ih _ _ ls

theorem sync_loop_new_entries (n : Nat) :
    ∀ (fp : FILE) (v : Locals) (ls : LogList) (i : Nat), ls.empty_pos ≤ i →
      i < (sync_loop n fp v ls).1.empty_pos →
      ((sync_loop n fp v ls).1.log i).cmd.length = CMD_S ∧
      ((sync_loop n fp v ls).1.log i).user.length = CMD_S := by
  induction n with
  | zero => intro fp v ls i h1 h2; simp [sync_loop_zero] at h2; omega
  | succ n ih =>
    intro fp v ls i h1 h2
    cases he : fp.eof with
    | true => simp [sync_loop_eof _ fp v ls he] at h2; omega
    | false =>
      rcases in_log_cases ls v.tid with h | h
      · rw [sync_loop_succ_new n fp v ls he h] at h2 ⊢
        by_cases hi : i = ls.empty_pos
        · have hf := (sync_loop_frame n (fscanf_LOG_FORMAT fp v).1 (fscanf_LOG_FORMAT fp v).2
            (store_entry ls ⟨v.tid, strncpy v.cmd CMD_S, strncpy v.user CMD_S⟩)).2 i
            (by rw [store_entry_empty_pos]; omega)
          rw [hf, hi, store_entry_log_new]
          exact ⟨strncpy_length _ _, strncpy_length _ _⟩
        · exact ih _ _ _ i (by rw [store_entry_empty_pos]; omega) h2
      · rw [sync_loop_succ_known n fp v ls he h] at h2 ⊢
        exact ih _ _ ls i h1 h2

theorem sync_loop_stuck (fp : FILE) (v : Locals) (ls : LogList)
    (hfix : fscanf_LOG_FORMAT fp v = (fp, v)) (he : fp.eof = false)
    (hk : in_log ls v.tid = 1) : ∀ n, sync_loop n fp v ls = (ls, false) := by
  intro n
  induction n with
  | zero => rw [sync_loop_zero, he]
  | succ n ih => rw [sync_loop_succ_known n fp v ls he hk, hfix]; exact ih

theorem in_log_fullList (p : Int) (h : (LOG_S : Int) ≤ p) : in_log fullList p = 0 := by
  rw [in_log_eq_zero_iff]
  intro i hi he
  have h1 : ((i : Nat) : Int) = p := he
  have h2 : i < LOG_S := hi
  omega

/-! ## Lemmas on handle_signal and the poll loop -/

theorem handle_signal_SIGINT_running (d : Daemon) : (handle_signal SIGINT d).running = 0 := by
  simp [handle_signal, stop_running]

theorem handle_signal_keeps_stopped (sig : Int) (d : Daemon) (h : d.running = 0) :
    (handle_signal sig d).running = 0 := by
  unfold handle_signal
  split_ifs <;> simp [log_debug, stop_running, h]

theorem iterate_append (U : Nat) (a : List proc_t) :
    ∀ (b : List proc_t) (ls : LogList) (file : List Char),
      iterate U (a ++ b) ls file = iterate U b (iterate U a ls file).1 (iterate U a ls file).2 := by
  induction a with
  | nil => intro b ls file; rfl
  | cons t ts ih =>
    intro b ls file
    rcases in_log_cases ls t.tid with h | h
    · rw [List.cons_append, iterate_cons_new U t (ts ++ b) ls file h,
        iterate_cons_new U t ts ls file h]
      exact ih b _ _
    · rw [List.cons_append, iterate_cons_known U t (ts ++ b) ls file h,
        iterate_cons_known U t ts ls file h]
      exact ih b _ _

theorem deliver_frame (o : Bool) (sig : Signal) (s s1 : Process)
    (h : deliver o sig s = some s1) : s1.ls = s.ls ∧ s1.file = s.file := by
  cases sig <;> simp only [deliver] at h
  · cases hd : s.sighup <;> rw [hd] at h <;> simp at h <;> subst h <;> exact ⟨rfl, rfl⟩
  · cases hd : s.daemon.sigint <;> rw [hd] at h <;> simp at h <;> subst h <;> exact ⟨rfl, rfl⟩
  all_goals first
    | (simp at h; subst h; exact ⟨rfl, rfl⟩)
    | (simp at h)

theorem deliver_keeps_stopped (o : Bool) (sig : Signal) (s s1 : Process)
    (h : deliver o sig s = some s1) (hr : s.daemon.running = 0) : s1.daemon.running = 0 := by
  cases sig <;> simp only [deliver] at h
  · cases hd : s.sighup <;> rw [hd] at h <;> simp at h <;> subst h
    · exact hr
    · exact handle_signal_keeps_stopped SIGHUP s.daemon hr
  · cases hd : s.daemon.sigint <;> rw [hd] at h <;> simp at h <;> subst h
    · exact hr
    · exact handle_signal_SIGINT_running _
  all_goals first
    | (simp at h; subst h; exact hr)
    | (simp at h)

theorem handle_signal_SIGHUP_sigint (d : Daemon) :
    (handle_signal SIGHUP d).sigint = d.sigint := by
  simp [handle_signal, log_debug, SIGHUP, SIGINT]

theorem deliver_other_sigint (o : Bool) (sig : Signal) (s s1 : Process)
    (h : deliver o sig s = some s1) (hne : sig ≠ Signal.SIGINT) :
    s1.daemon.sigint = s.daemon.sigint := by
  cases sig <;> simp only [deliver] at h
  · cases hd : s.sighup <;> rw [hd] at h <;> simp at h <;> subst h
    · rfl
    · exact handle_signal_SIGHUP_sigint s.daemon
  · exact absurd rfl hne
  all_goals first
    | (simp at h; subst h; rfl)
    | (simp at h)

theorem deliver_SIGINT_handler (o : Bool) (s s1 : Process)
    (h : deliver o Signal.SIGINT s = some s1) (hd : s.daemon.sigint = Disposition.handler) :
    s1.daemon.running = 0 ∧ s1.daemon.sigint = Disposition.SIG_DFL := by
  simp only [deliver, hd] at h
  simp at h
  subst h
  exact ⟨handle_signal_SIGINT_running _, by simp [handle_signal]⟩

theorem run_pass_complete (o : Bool) (U : Nat) (t : List Step) :
    ∀ (s s1 : Process), run_pass o U t s = (s1, false) →
      (s1.ls, s1.file) = iterate U (snapshot_of t) s.ls s.file := by
  induction t with
  | nil =>
    intro s s1 h
    simp only [run_pass, Prod.mk.injEq] at h
    rw [← h.1]
    rfl
  | cons st rest ih =>
    intro s s1 h
    cases st with
    | readproc p =>
      simp only [run_pass] at h
      have h2 := ih _ s1 h
      rw [h2]
      simp only [snapshot_of]
      exact (iterate_append U [p] (snapshot_of rest) s.ls s.file).symm
    | signal sig =>
      simp only [run_pass] at h
      cases hd : deliver o sig s with
      | none => rw [hd] at h; simp at h
      | some s2 =>
        rw [hd] at h
        have h2 := ih s2 s1 h
        obtain ⟨h3, h4⟩ := deliver_frame o sig s s2 hd
        rw [h2, h3, h4]
        rfl

theorem run_pass_keeps_stopped (o : Bool) (U : Nat) (t : List Step) :
    ∀ (s s1 : Process), run_pass o U t s = (s1, false) → s.daemon.running = 0 →
      s1.daemon.running = 0 := by
  induction t with
  | nil =>
    intro s s1 h hr
    simp only [run_pass, Prod.mk.injEq] at h
    rw [← h.1]
    exact hr
  | cons st rest ih =>
    intro s s1 h hr
    cases st with
    | readproc p =>
      simp only [run_pass] at h
      exact ih _ s1 h hr
    | signal sig =>
      simp only [run_pass] at h
      cases hd : deliver o sig s with
      | none => rw [hd] at h; simp at h
      | some s2 =>
        rw [hd] at h
        exact ih s2 s1 h (deliver_keeps_stopped o sig s s2 hd hr)

theorem run_pass_SIGINT (o : Bool) (U : Nat) (t : List Step) :
    ∀ (s s1 : Process), run_pass o U t s = (s1, false) →
      s.daemon.sigint = Disposition.handler → Step.signal Signal.SIGINT ∈ t →
      s1.daemon.running = 0 := by
  induction t with
  | nil => intro s s1 _ _ hm; simp at hm
  | cons st rest ih =>
    intro s s1 h hd hm
    cases st with
    | readproc p =>
      simp only [run_pass] at h
      have hm2 : Step.signal Signal.SIGINT ∈ rest := by
        rcases List.mem_cons.1 hm with h1 | h1
        · cases h1
        · exact h1
      exact ih _ s1 h hd hm2
    | signal sig =>
      simp only [run_pass] at h
      cases hdl : deliver o sig s with
      | none => rw [hdl] at h; simp at h
      | some s2 =>
        rw [hdl] at h
        by_cases hs : sig = Signal.SIGINT
        · subst hs
          exact run_pass_keeps_stopped o U rest s2 s1 h (deliver_SIGINT_handler o s s2 hdl hd).1
        · have hm2 : Step.signal Signal.SIGINT ∈ rest := by
            rcases List.mem_cons.1 hm with h1 | h1
            · cases h1
              exact absurd rfl hs
            · exact h1
          exact ih s2 s1 h (by rw [deliver_other_sigint o sig s s2 hdl hs]; exact hd) hm2

theorem main_loop_stopped (o : Bool) (U : Nat) (ts : List (List Step)) (s : Process)
    (h : s.daemon.running ≠ 1) : main_loop o U ts s = (Outcome.exited, s) := by
  cases ts with
  | nil => simp [main_loop, h]
  | cons t ts => simp [main_loop, h]

theorem main_loop_exited (o : Bool) (U : Nat) (ticks : List (List Step)) :
    ∀ (s s1 : Process), main_loop o U ticks s = (Outcome.exited, s1) →
      s1.daemon.running ≠ 1 ∧
      ∃ k, k ≤ ticks.length ∧
        (s1.ls, s1.file) = reconcile U ((ticks.take k).map snapshot_of) s.ls s.file := by
  induction ticks with
  | nil =>
    intro s s1 h
    by_cases hr : s.daemon.running = 1
    · simp [main_loop, hr] at h
    · simp only [main_loop, if_neg hr, Prod.mk.injEq, true_and] at h
      rw [← h]
      exact ⟨hr, 0, le_refl 0, rfl⟩
  | cons t ts ih =>
    intro s s1 h
    by_cases hr : s.daemon.running = 1
    · simp only [main_loop, if_pos hr] at h
      cases hp : run_pass o U t s with
      | mk s2 killed =>
        rw [hp] at h
        cases killed with
        | true => simp at h
        | false =>
          simp only at h
          obtain ⟨h1, k, hk, h2⟩ := ih s2 s1 h
          have hc := run_pass_complete o U t s s2 hp
          refine ⟨h1, k + 1, by simp; omega, ?_⟩
          rw [h2]
          simp only [List.take_succ_cons, List.map_cons, reconcile]
          rw [← hc]
    · simp only [main_loop, if_neg hr, Prod.mk.injEq, true_and] at h
      rw [← h]
      exact ⟨hr, 0, Nat.zero_le _, rfl⟩

/-! ## Lemmas on reading back a line written by iterate -/

theorem digitChar_spec (k : Nat) (h : k < 10) :
    isdigit (Nat.digitChar k) = true ∧ (Nat.digitChar k).toNat - 48 = k := by
  interval_cases k <;> decide

theorem isdigit_not_space (c : Char) (h : isdigit c = true) :
    isspace c = false ∧ c ≠ '-' ∧ c ≠ '+' ∧ c ≠ ':' := by
  simp only [isdigit, Bool.and_eq_true, decide_eq_true_eq] at h
  refine ⟨?_, ?_, ?_, ?_⟩
  · simp only [isspace, Bool.or_eq_false_iff, decide_eq_false_iff_not]
    refine ⟨⟨⟨⟨⟨?_, ?_⟩, ?_⟩, ?_⟩, ?_⟩, ?_⟩ <;> (intro he; rw [he] at h; revert h; decide)
  all_goals (intro he; rw [he] at h; revert h; decide)

theorem toDigitsCore_append (fuel : Nat) :
    ∀ (n : Nat) (ds : List Char),
      Nat.toDigitsCore 10 fuel n ds = Nat.toDigitsCore 10 fuel n [] ++ ds := by
  induction fuel with
  | zero => intro n ds; simp [Nat.toDigitsCore]
  | succ f ih =>
    intro n ds
    simp only [Nat.toDigitsCore]
    split
    · simp
    · rw [ih (n / 10) (Nat.digitChar (n % 10) :: ds), ih (n / 10) [Nat.digitChar (n % 10)]]
      simp

theorem toDigitsCore_spec (fuel : Nat) :
    ∀ (n : Nat), n < fuel →
      Nat.toDigitsCore 10 fuel n [] ≠ [] ∧
      (∀ c ∈ Nat.toDigitsCore 10 fuel n [], isdigit c = true) ∧
      (Nat.toDigitsCore 10 fuel n []).foldl (fun a c => 10 * a + (c.toNat - 48)) 0 = n := by
  induction fuel with
  | zero => intro n h; omega
  | succ f ih =>
    intro n h
    have hd := digitChar_spec (n % 10) (Nat.mod_lt n (by decide))
    simp only [Nat.toDigitsCore]
    split
    · rename_i h0
      refine ⟨by simp, ?_, ?_⟩
      · intro c hc
        rw [List.mem_singleton] at hc
        rw [hc]; exact hd.1
      · simp only [List.foldl_cons, List.foldl_nil]
        rw [hd.2]
        omega
    · rename_i h0
      rw [toDigitsCore_append f (n / 10) [Nat.digitChar (n % 10)]]
      obtain ⟨h1, h2, h3⟩ := ih (n / 10) (by omega)
      refine ⟨by simp, ?_, ?_⟩
      · intro c hc
        rcases List.mem_append.1 hc with hc | hc
        · exact h2 c hc
        · rw [List.mem_singleton] at hc
          rw [hc]; exact hd.1
      · rw [List.foldl_append, h3]
        simp only [List.foldl_cons, List.foldl_nil]
        rw [hd.2]
        omega

theorem store_u_print (tid : Int) (h1 : -2 ^ 31 ≤ tid) (h2 : tid < 2 ^ 31) :
    store_u (tid % 2 ^ 32).toNat = tid := by
  unfold store_u
  have h3 : (0 : Int) ≤ tid % 2 ^ 32 := Int.emod_nonneg _ (by norm_num)
  have h4 : tid % 2 ^ 32 < 2 ^ 32 := Int.emod_lt_of_pos _ (by norm_num)
  have h5 : ((tid % 2 ^ 32).toNat : Int) = tid % 2 ^ 32 := Int.toNat_of_nonneg h3
  have h6 : (tid % 2 ^ 32).toNat % 2 ^ 32 = (tid % 2 ^ 32).toNat := by
    apply Nat.mod_eq_of_lt
    omega
  rw [h6]
  split <;> omega

theorem takeWhile_append_stop {p : Char → Bool} (l : List Char) (y : Char) (r : List Char)
    (hl : ∀ x ∈ l, p x = true) (hy : p y = false) :
    (l ++ y :: r).takeWhile p = l ∧ (l ++ y :: r).dropWhile p = y :: r := by
  induction l with
  | nil => simp [List.takeWhile, List.dropWhile, hy]
  | cons a l ih =>
    have ha : p a = true := hl a (List.mem_cons_self a l)
    obtain ⟨h1, h2⟩ := ih (fun x hx => hl x (List.mem_cons_of_mem a hx))
    simp [List.takeWhile, List.dropWhile, ha, h1, h2]

theorem takeWhile_all {p : Char → Bool} (l : List Char) (hl : ∀ x ∈ l, p x = true) :
    l.takeWhile p = l ∧ l.dropWhile p = [] := by
  induction l with
  | nil => simp
  | cons a l ih =>
    have ha : p a = true := hl a (List.mem_cons_self a l)
    obtain ⟨h1, h2⟩ := ih (fun x hx => hl x (List.mem_cons_of_mem a hx))
    simp [List.takeWhile, List.dropWhile, ha, h1, h2]

theorem cstr_clean (s : List Char) (h : ∀ c ∈ s, isspace c = false ∧ c ≠ NUL) : cstr s = s := by
  unfold cstr
  exact (takeWhile_all s (fun x hx => by simpa using (h x hx).2)).1

theorem skip_space_nonspace (c : Char) (cs : List Char) (e : Bool) (h : isspace c = false) :
    skip_space ⟨c :: cs, e⟩ = ⟨c :: cs, e⟩ := by
  simp [skip_space, List.dropWhile, h]

theorem scan_u_digits (ds : List Char) (y : Char) (r : List Char) (hne : ds ≠ [])
    (hds : ∀ c ∈ ds, isdigit c = true) (hy : isdigit y = false) :
    scan_u ⟨ds ++ y :: r, false⟩ = (⟨y :: r, false⟩, some (store_u (strtoul10 false ds))) := by
  obtain ⟨d, ds', rfl⟩ := List.exists_cons_of_ne_nil hne
  have hd : isdigit d = true := hds d (List.mem_cons_self d ds')
  obtain ⟨hsp, hm, hp, _⟩ := isdigit_not_space d hd
  obtain ⟨h1, h2⟩ := takeWhile_append_stop (d :: ds') y r hds hy
  have hskip : skip_space ⟨d :: ds' ++ y :: r, false⟩ = ⟨d :: ds' ++ y :: r, false⟩ :=
    skip_space_nonspace d _ false hsp
  unfold scan_u
  rw [hskip]
  simp only [List.cons_append] at h1 h2 ⊢
  simp [hm, hp, h1, h2]

theorem scan_s_token (tok : List Char) (y : Char) (r : List Char) (hne : tok ≠ [])
    (htok : ∀ c ∈ tok, isspace c = false) (hy : isspace y = true) :
    scan_s ⟨tok ++ y :: r, false⟩ = (⟨y :: r, false⟩, some (tok ++ [NUL])) := by
  obtain ⟨d, tok', rfl⟩ := List.exists_cons_of_ne_nil hne
  have hd : isspace d = false := htok d (List.mem_cons_self d tok')
  obtain ⟨h1, h2⟩ := takeWhile_append_stop (p := fun x => !isspace x) (d :: tok') y r
    (fun x hx => by simp [htok x hx]) (by simp [hy])
  have hskip : skip_space ⟨d :: tok' ++ y :: r, false⟩ = ⟨d :: tok' ++ y :: r, false⟩ :=
    skip_space_nonspace d _ false hd
  unfold scan_s
  rw [hskip]
  simp only [List.cons_append] at h1 h2 ⊢
  simp [h1, h2]

theorem skip_space_newline (rest : List Char) (h : starts_clean rest) :
    skip_space ⟨'\n' :: rest, false⟩ = ⟨rest, rest.isEmpty⟩ := by
  cases rest with
  | nil => rfl
  | cons c cs =>
    have hc := h c cs rfl
    have hn : isspace '\n' = true := by decide
    simp [skip_space, List.dropWhile, hn, hc]

theorem fscanf_line (t : proc_t) (hc : clean t) (rest : List Char) (hrest : starts_clean rest)
    (v : Locals) :
    fscanf_LOG_FORMAT ⟨fprintf_LOG_FORMAT t.tid t.cmd t.euser ++ rest, false⟩ v =
      (⟨rest, rest.isEmpty⟩, ⟨t.tid, t.cmd ++ [NUL], t.euser ++ [NUL]⟩) := by
  obtain ⟨h1, h2, h3, h4, h5, h6⟩ := hc
  have hlt : (t.tid % 2 ^ 32).toNat < 2 ^ 32 := by
    have := Int.emod_lt_of_pos t.tid (show (0 : Int) < 2 ^ 32 by norm_num)
    have := Int.emod_nonneg t.tid (show (2 ^ 32 : Int) ≠ 0 by norm_num)
    omega
  obtain ⟨d1, d2, d3⟩ := toDigitsCore_spec ((t.tid % 2 ^ 32).toNat + 1) (t.tid % 2 ^ 32).toNat
    (by omega)
  have hu : scan_u ⟨print_u t.tid ++ ':' :: (t.cmd ++ '\t' :: '\t' :: (t.euser ++ '\n' :: rest)),
      false⟩ = (⟨':' :: (t.cmd ++ '\t' :: '\t' :: (t.euser ++ '\n' :: rest)), false⟩,
        some t.tid) := by
    rw [scan_u_digits (print_u t.tid) ':' _ d1 d2 (by decide)]
    have hv : strtoul10 false (print_u t.tid) = (t.tid % 2 ^ 32).toNat := by
      unfold strtoul10
      simp only [print_u, Nat.toDigits]
      rw [d3]
      have hsat : ¬ (2 ^ 64 ≤ (t.tid % 2 ^ 32).toNat) := by omega
      rw [if_neg hsat]
      simp
    rw [hv, store_u_print t.tid h1 h2]
  have hs1 : scan_s ⟨t.cmd ++ '\t' :: '\t' :: (t.euser ++ '\n' :: rest), false⟩ =
      (⟨'\t' :: '\t' :: (t.euser ++ '\n' :: rest), false⟩, some (t.cmd ++ [NUL])) :=
    scan_s_token t.cmd '\t' _ h3 (fun c hc => (h5 c hc).1) (by decide)
  have hsk : skip_space ⟨'\t' :: '\t' :: (t.euser ++ '\n' :: rest), false⟩ =
      ⟨t.euser ++ '\n' :: rest, false⟩ := by
    obtain ⟨u, us, hu'⟩ := List.exists_cons_of_ne_nil h4
    have hu1 : isspace u = false := (h6 u (by rw [hu']; exact List.mem_cons_self u us)).1
    have ht : isspace '\t' = true := by decide
    rw [hu']
    simp [skip_space, List.dropWhile, ht, hu1]
  have hs2 : scan_s ⟨t.euser ++ '\n' :: rest, false⟩ =
      (⟨'\n' :: rest, false⟩, some (t.euser ++ [NUL])) :=
    scan_s_token t.euser '\n' _ h4 (fun c hc => (h6 c hc).1) (by decide)
  have hfmt : fprintf_LOG_FORMAT t.tid t.cmd t.euser ++ rest =
      print_u t.tid ++ ':' :: (t.cmd ++ '\t' :: '\t' :: (t.euser ++ '\n' :: rest)) := by
    simp [fprintf_LOG_FORMAT, cstr_clean t.cmd h5, cstr_clean t.euser h6]
  rw [hfmt]
  unfold fscanf_LOG_FORMAT
  rw [hu]
  simp only [match_char, if_true]
  rw [hs1]
  simp only []
  rw [hsk, hs2]
  simp only []
  rw [skip_space_newline rest hrest]

theorem print_u_spec (tid : Int) :
    print_u tid ≠ [] ∧ ∀ c ∈ print_u tid, isdigit c = true := by
  have h := toDigitsCore_spec ((tid % 2 ^ 32).toNat + 1) (tid % 2 ^ 32).toNat (by omega)
  exact ⟨h.1, h.2.1⟩

theorem log_lines_starts_clean (ts : List proc_t) : starts_clean (log_lines ts) := by
  intro c cs h
  cases ts with
  | nil => simp [log_lines] at h
  | cons t ts =>
    obtain ⟨hne, hd⟩ := print_u_spec t.tid
    obtain ⟨d, ds, hds⟩ := List.exists_cons_of_ne_nil hne
    rw [log_lines_cons, fprintf_LOG_FORMAT, hds] at h
    simp only [List.cons_append, List.append_assoc] at h
    have hcd : c = d := (List.cons.inj h).1.symm
    rw [hcd]
    exact (isdigit_not_space d (hd d (by rw [hds]; exact List.mem_cons_self d ds))).1

theorem log_lines_isEmpty (ts : List proc_t) : (log_lines ts).isEmpty = ts.isEmpty := by
  cases ts with
  | nil => rfl
  | cons t ts =>
    obtain ⟨hne, _⟩ := print_u_spec t.tid
    obtain ⟨d, ds, hds⟩ := List.exists_cons_of_ne_nil hne
    rw [log_lines_cons, fprintf_LOG_FORMAT, hds]
    rfl

theorem sync_loop_lines (ts : List proc_t) :
    ∀ (t : proc_t) (ls : LogList) (fuel : Nat), (∀ x ∈ ts, clean x) → ts.length ≤ fuel →
      sync_loop fuel ⟨log_lines ts, ts.isEmpty⟩ ⟨t.tid, t.cmd ++ [NUL], t.euser ++ [NUL]⟩ ls =
        (load ls (t :: ts).dropLast, true) := by
  induction ts with
  | nil => intro t ls fuel _ _; exact sync_loop_eof fuel _ _ ls rfl
  | cons t2 ts ih =>
    intro t ls fuel hcl hfuel
    obtain ⟨n, rfl⟩ : ∃ n, fuel = n + 1 := ⟨fuel - 1, by simp at hfuel; omega⟩
    have hsc : fscanf_LOG_FORMAT ⟨log_lines (t2 :: ts), false⟩
        ⟨t.tid, t.cmd ++ [NUL], t.euser ++ [NUL]⟩ =
        (⟨log_lines ts, ts.isEmpty⟩, ⟨t2.tid, t2.cmd ++ [NUL], t2.euser ++ [NUL]⟩) := by
      rw [log_lines_cons, fscanf_line t2 (hcl t2 (List.mem_cons_self t2 ts)) (log_lines ts)
        (log_lines_starts_clean ts), log_lines_isEmpty]
    have hih := fun ls2 => ih t2 ls2 n (fun x hx => hcl x (List.mem_cons_of_mem t2 hx))
      (by simp at hfuel; omega)
    have hdl : (t :: t2 :: ts).dropLast = t :: (t2 :: ts).dropLast := rfl
    rw [hdl]
    show sync_loop (n + 1) ⟨log_lines (t2 :: ts), false⟩ _ ls = _
    rcases in_log_cases ls t.tid with h | h
    · rw [sync_loop_succ_new n _ _ ls rfl h, hsc, hih]
      simp [load, h]
    · rw [sync_loop_succ_known n _ _ ls rfl h, hsc, hih]
      have hne : in_log ls t.tid ≠ 0 := by rw [h]; decide
      simp [load, hne]

theorem sync_log_lines (t : proc_t) (ts : List proc_t) (ls : LogList) (fuel : Nat) (v0 : Locals)
    (hcl : ∀ x ∈ t :: ts, clean x) (hfuel : ts.length ≤ fuel) :
    sync_log fuel (log_lines (t :: ts)) v0 ls = (load ls (t :: ts).dropLast, true) := by
  unfold sync_log
  rw [log_lines_cons, fscanf_line t (hcl t (List.mem_cons_self t ts)) (log_lines ts)
    (log_lines_starts_clean ts), log_lines_isEmpty]
  exact sync_loop_lines ts t ls fuel (fun x hx => hcl x (List.mem_cons_of_mem t hx)) hfuel

theorem locals_line_in_bounds (U : Nat) (t : proc_t) (h : fits U t) :
    locals_fit U ⟨t.tid, t.cmd ++ [NUL], t.euser ++ [NUL]⟩ = true ∧
    locals_terminated ⟨t.tid, t.cmd ++ [NUL], t.euser ++ [NUL]⟩ = true := by
  obtain ⟨h1, h2⟩ := h
  constructor
  · simp only [locals_fit, List.length_append, List.length_singleton, Bool.and_eq_true,
      decide_eq_true_eq]
    omega
  · simp [locals_terminated]

theorem sync_loop_in_bounds_lines (U : Nat) (ts : List proc_t) :
    ∀ (t : proc_t) (ls : LogList) (fuel : Nat), (∀ x ∈ t :: ts, clean x ∧ fits U x) →
      ls.empty_pos + ts.length < LOG_S →
      sync_loop_in_bounds U fuel ⟨log_lines ts, ts.isEmpty⟩
        ⟨t.tid, t.cmd ++ [NUL], t.euser ++ [NUL]⟩ ls = true := by
  induction ts with
  | nil =>
    intro t ls fuel hcl _
    have hf := (locals_line_in_bounds U t (hcl t (List.mem_cons_self t [])).2).1
    cases fuel with
    | zero => simpa [sync_loop_in_bounds] using hf
    | succ n => simp [sync_loop_in_bounds, hf]
  | cons t2 ts ih =>
    intro t ls fuel hcl hroom
    obtain ⟨hf, hterm⟩ := locals_line_in_bounds U t (hcl t (List.mem_cons_self t _)).2
    cases fuel with
    | zero => simpa [sync_loop_in_bounds] using hf
    | succ n =>
      have hcl2 : ∀ x ∈ t2 :: ts, clean x ∧ fits U x :=
        fun x hx => hcl x (List.mem_cons_of_mem t hx)
      have hsc : fscanf_LOG_FORMAT ⟨log_lines (t2 :: ts), false⟩
          ⟨t.tid, t.cmd ++ [NUL], t.euser ++ [NUL]⟩ =
          (⟨log_lines ts, ts.isEmpty⟩, ⟨t2.tid, t2.cmd ++ [NUL], t2.euser ++ [NUL]⟩) := by
        rw [log_lines_cons, fscanf_line t2 (hcl2 t2 (List.mem_cons_self t2 ts)).1 (log_lines ts)
          (log_lines_starts_clean ts), log_lines_isEmpty]
      have hlen : (t2 :: ts).length = ts.length + 1 := rfl
      rw [hlen] at hroom
      have hstore : store_in_bounds U ls = true := by
        simp only [store_in_bounds, Bool.and_eq_true, Bool.or_eq_true, decide_eq_true_eq]
        exact ⟨by omega, Or.inr (by omega)⟩
      show sync_loop_in_bounds U (n + 1) ⟨log_lines (t2 :: ts), false⟩ _ ls = true
      simp only [sync_loop_in_bounds, hf, Bool.true_and, Bool.false_eq_true, if_false, hsc]
      rcases in_log_cases ls t.tid with h | h
      · rw [if_pos h, hterm, hstore]
        simp only [Bool.true_and, Bool.and_self]
        exact ih t2 _ n hcl2 (by rw [store_entry_empty_pos]; omega)
      · have hne : in_log ls t.tid ≠ 0 := by rw [h]; decide
        rw [if_neg hne]
        exact ih t2 ls n hcl2 (by omega)

theorem sync_log_in_bounds_lines (U : Nat) (t : proc_t) (ts : List proc_t) (ls : LogList)
    (fuel : Nat) (v0 : Locals) (hv0 : locals_fit U v0 = true)
    (hcl : ∀ x ∈ t :: ts, clean x ∧ fits U x) (hroom : ls.empty_pos + ts.length < LOG_S) :
    sync_log_in_bounds U fuel (log_lines (t :: ts)) v0 ls = true := by
  unfold sync_log_in_bounds
  rw [hv0, log_lines_cons, fscanf_line t (hcl t (List.mem_cons_self t ts)).1 (log_lines ts)
    (log_lines_starts_clean ts), log_lines_isEmpty]
  simp only [Bool.true_and]
  exact sync_loop_in_bounds_lines U ts t ls fuel hcl hroom

theorem in_log_load (ts : List proc_t) :
    ∀ (ls : LogList) (p : Int),
      in_log (load ls ts) p = 1 ↔ in_log ls p = 1 ∨ ∃ x ∈ ts, x.tid = p := by
  induction ts with
  | nil => intro ls p; simp [load]
  | cons t ts ih =>
    intro ls p
    simp only [load, List.mem_cons, exists_eq_or_imp]
    rw [ih]
    rcases in_log_cases ls t.tid with h | h
    · rw [if_pos h, in_log_store_entry]
      tauto
    · have hne : in_log ls t.tid ≠ 0 := by rw [h]; decide
      rw [if_neg hne]
      constructor
      · rintro (h1 | h1)
        · exact Or.inl h1
        · exact Or.inr (Or.inr h1)
      · rintro (h1 | h1 | h1)
        · exact Or.inl h1
        · exact Or.inl (h1 ▸ h)
        · exact Or.inr h1

theorem load_empty_pos (ts : List proc_t) :
    ∀ (ls : LogList), (∀ x ∈ ts, in_log ls x.tid = 0) → (ts.map proc_t.tid).Nodup →
      (load ls ts).empty_pos = ls.empty_pos + ts.length := by
  induction ts with
  | nil => intro ls _ _; rfl
  | cons t ts ih =>
    intro ls hnew hnd
    rw [List.map_cons, List.nodup_cons] at hnd
    have h0 := hnew t (List.mem_cons_self t ts)
    simp only [load, if_pos h0]
    rw [ih, store_entry_empty_pos, List.length_cons]
    · omega
    · intro x hx
      rcases in_log_cases (store_entry ls ⟨t.tid, strncpy (t.cmd ++ [NUL]) CMD_S,
        strncpy (t.euser ++ [NUL]) CMD_S⟩) x.tid with h | h
      · exact h
      · rcases (in_log_store_entry ls _ x.tid).1 h with h1 | h1
        · rw [hnew x (List.mem_cons_of_mem t hx)] at h1
          exact absurd h1 (by decide)
        · exact absurd (List.mem_map.2 ⟨x, hx, h1.symm⟩) hnd.1
    · exact hnd.2

theorem unseen_nodup (S : LogList) (ts : List proc_t) :
    ∀ (earlier : List proc_t), (∀ x ∈ ts, in_log S x.tid = 0) →
      ((earlier ++ ts).map proc_t.tid).Nodup → unseen S earlier ts = ts := by
  induction ts with
  | nil => intro _ _ _; rfl
  | cons t ts ih =>
    intro earlier hnew hnd
    have hc : in_log S t.tid = 0 ∧ ∀ u ∈ earlier, u.tid ≠ t.tid := by
      refine ⟨hnew t (List.mem_cons_self t ts), fun u hu he => ?_⟩
      rw [List.map_append, List.map_cons] at hnd
      have := (List.nodup_append.1 hnd).2.2
      exact this (List.mem_map.2 ⟨u, hu, he⟩) (List.mem_cons_self _ _)
    simp only [unseen]
    rw [if_pos hc, ih (earlier ++ [t]) (fun x hx => hnew x (List.mem_cons_of_mem t hx))
      (by simpa using hnd)]

theorem mem_takeWhile_holds {p : Char → Bool} (l : List Char) :
    ∀ x ∈ l.takeWhile p, p x = true := by
  induction l with
  | nil => intro x hx; simp at hx
  | cons a l ih =>
    intro x hx
    by_cases ha : p a = true
    · rw [List.takeWhile_cons_of_pos ha] at hx
      rcases List.mem_cons.1 hx with h | h
      · rw [h]; exact ha
      · exact ih x h
    · rw [List.takeWhile_cons_of_neg ha] at hx
      simp at hx

theorem cstr_strncpy (src : List Char) (n : Nat) (h : (cstr src).length < n) :
    cstr (strncpy src n) = cstr src := by
  have ht : (cstr src).take n = cstr src := List.take_of_length_le (by omega)
  obtain ⟨k, hk⟩ : ∃ k, n - (cstr src).length = k + 1 := ⟨n - (cstr src).length - 1, by omega⟩
  have hall : ∀ x ∈ cstr src, (fun c => c != NUL) x = true :=
    fun x hx => mem_takeWhile_holds src x hx
  unfold strncpy
  rw [ht, hk, List.replicate_succ]
  have h2 := (takeWhile_append_stop (p := fun c => c != NUL) (cstr src) NUL
    (List.replicate k NUL) hall (by decide)).1
  exact h2

/-! ## The membership test (C4) -/

/-- C4. Membership test: `in_log` returns 1 exactly when some entry at an
index below `empty_pos` has `tid = p`, and 0 otherwise; two tables with the
same `empty_pos` and the same process ids at the indices below it give the
same result whatever their `cmd` and `user` fields hold. -/
theorem in_log_membership (ls : LogList) (p : Int) :
    (in_log ls p = 1 ↔ ∃ i, i < ls.empty_pos ∧ (ls.log i).tid = p) ∧
    (in_log ls p = 0 ↔ ¬ ∃ i, i < ls.empty_pos ∧ (ls.log i).tid = p) ∧
    (∀ ls2 : LogList, ls2.empty_pos = ls.empty_pos →
      (∀ i, i < ls.empty_pos → (ls2.log i).tid = (ls.log i).tid) →
      in_log ls2 p = in_log ls p) := by
  refine ⟨in_log_eq_one_iff ls p, ?_, ?_⟩
  · rw [in_log_eq_zero_iff]
    constructor
    · rintro h ⟨i, hi, hp⟩
      exact h i hi hp
    · intro h i hi hp
      exact h ⟨i, hi, hp⟩
  · intro ls2 he ht
    rcases in_log_cases ls p with h | h
    · rw [h]
      rw [in_log_eq_zero_iff] at h ⊢
      intro i hi
      rw [he] at hi
      rw [ht i hi]
      exact h i hi
    · rw [h]
      rw [in_log_eq_one_iff] at h ⊢
      obtain ⟨i, hi, hp⟩ := h
      exact ⟨i, by rw [he]; exact hi, by rw [ht i hi]; exact hp⟩

/-! ## The reconciler (C2, C3, C5) -/

/-- C2. Reconciler result and order: when the table stays within its
capacity, one call of `iterate` appends to the log file exactly the lines
`"<processId>:<command>\t\t<user>\n"` of the snapshot tuples whose process id
is neither contained in `S` nor carried by an earlier tuple of the snapshot,
in snapshot order, and nothing else; afterwards `in_log p` is 1 exactly when
`p` was contained in `S` or is the id of some snapshot tuple, and 0 otherwise. -/
theorem iterate_result_and_order (USER_S : Nat) (S : LogList) (snapshot : List proc_t)
    (file : List Char) (_hcap : (iterate USER_S snapshot S file).1.empty_pos ≤ LOG_S) :
    (iterate USER_S snapshot S file).2 = file ++ log_lines (unseen S [] snapshot) ∧
    (∀ p, in_log (iterate USER_S snapshot S file).1 p = 1 ↔
      in_log S p = 1 ∨ ∃ t ∈ snapshot, t.tid = p) ∧
    (∀ p, in_log (iterate USER_S snapshot S file).1 p = 0 ↔
      ¬ (in_log S p = 1 ∨ ∃ t ∈ snapshot, t.tid = p)) := by
  refine ⟨iterate_output USER_S S snapshot [] S file (fun p => by simp),
    iterate_in_log USER_S snapshot S file, fun p => ?_⟩
  rw [← iterate_in_log USER_S snapshot S file p]
  rcases in_log_cases (iterate USER_S snapshot S file).1 p with h | h <;> simp [h]

/-- Witness of C2, the scenario of the specification: the empty table and the
snapshot `[{1,"sh","alice"}]` give the single line `1:sh\t\talice`, with
`in_log 1 = 1` and `in_log 2 = 0` afterwards. -/
theorem iterate_result_and_order_witness :
    (iterate 33 [⟨1, "sh".toList, "alice".toList⟩] emptyList []).1.empty_pos ≤ LOG_S ∧
    (iterate 33 [⟨1, "sh".toList, "alice".toList⟩] emptyList []).2 = "1:sh\t\talice\n".toList ∧
    in_log (iterate 33 [⟨1, "sh".toList, "alice".toList⟩] emptyList []).1 1 = 1 ∧
    in_log (iterate 33 [⟨1, "sh".toList, "alice".toList⟩] emptyList []).1 2 = 0 :=
  have h := iterate_result_and_order 33 emptyList [⟨1, "sh".toList, "alice".toList⟩] []
    (by decide)
  ⟨by decide, h.1.trans (by decide), (h.2.1 1).2 (Or.inr ⟨_, List.mem_singleton.2 rfl, rfl⟩),
    (h.2.2 2).2 (by decide)⟩

/-- C3. Idempotent reconciliation: when the table stays within its capacity,
a second run of `iterate` on the same snapshot appends no line and leaves the
table as the first run left it; the lines the two runs appended are those of
the first run, which carry pairwise distinct process ids. -/
theorem iterate_idempotent (USER_S : Nat) (S : LogList) (snapshot : List proc_t)
    (file : List Char) (_hcap : (iterate USER_S snapshot S file).1.empty_pos ≤ LOG_S) :
    (iterate USER_S snapshot (iterate USER_S snapshot S file).1
        (iterate USER_S snapshot S file).2).2 = (iterate USER_S snapshot S file).2 ∧
    (iterate USER_S snapshot (iterate USER_S snapshot S file).1
        (iterate USER_S snapshot S file).2).1 = (iterate USER_S snapshot S file).1 ∧
    (iterate USER_S snapshot (iterate USER_S snapshot S file).1
        (iterate USER_S snapshot S file).2).2 = file ++ log_lines (unseen S [] snapshot) ∧
    ((unseen S [] snapshot).map proc_t.tid).Nodup := by
  have hk : ∀ t ∈ snapshot, in_log (iterate USER_S snapshot S file).1 t.tid = 1 :=
    fun t ht => (iterate_in_log USER_S snapshot S file t.tid).2 (Or.inr ⟨t, ht, rfl⟩)
  have h2 := iterate_known USER_S snapshot (iterate USER_S snapshot S file).1
    (iterate USER_S snapshot S file).2 hk
  rw [h2]
  exact ⟨rfl, rfl, iterate_output USER_S S snapshot [] S file (fun p => by simp),
    (unseen_spec S snapshot []).2⟩

/-- Witness of C3: two runs on the snapshot `[{1,"sh","alice"}, {1,"sh","alice"},
{2,"ls","bob"}]` from the empty table leave two lines and two entries. -/
theorem iterate_idempotent_witness :
    (iterate 33 [⟨1, "sh".toList, "alice".toList⟩, ⟨1, "sh".toList, "alice".toList⟩,
      ⟨2, "ls".toList, "bob".toList⟩] emptyList []).1.empty_pos ≤ LOG_S ∧
    (iterate 33 [⟨1, "sh".toList, "alice".toList⟩, ⟨1, "sh".toList, "alice".toList⟩,
      ⟨2, "ls".toList, "bob".toList⟩]
      (iterate 33 [⟨1, "sh".toList, "alice".toList⟩, ⟨1, "sh".toList, "alice".toList⟩,
        ⟨2, "ls".toList, "bob".toList⟩] emptyList []).1
      (iterate 33 [⟨1, "sh".toList, "alice".toList⟩, ⟨1, "sh".toList, "alice".toList⟩,
        ⟨2, "ls".toList, "bob".toList⟩] emptyList []).2).2 = "1:sh\t\talice\n2:ls\t\tbob\n".toList ∧
    (iterate 33 [⟨1, "sh".toList, "alice".toList⟩, ⟨1, "sh".toList, "alice".toList⟩,
      ⟨2, "ls".toList, "bob".toList⟩]
      (iterate 33 [⟨1, "sh".toList, "alice".toList⟩, ⟨1, "sh".toList, "alice".toList⟩,
        ⟨2, "ls".toList, "bob".toList⟩] emptyList []).1
      (iterate 33 [⟨1, "sh".toList, "alice".toList⟩, ⟨1, "sh".toList, "alice".toList⟩,
        ⟨2, "ls".toList, "bob".toList⟩] emptyList []).2).1.empty_pos = 2 :=
  have h := iterate_idempotent 33 emptyList [⟨1, "sh".toList, "alice".toList⟩,
    ⟨1, "sh".toList, "alice".toList⟩, ⟨2, "ls".toList, "bob".toList⟩] [] (by decide)
  ⟨by decide, h.2.2.1.trans (by decide), (congrArg LogList.empty_pos h.2.1).trans (by decide)⟩

/-- C5. Dedup by id only: when the table contains an entry with process id
`p` and stays within its capacity, `iterate` appends exactly the lines of the
unseen tuples, none of which carries `p`, stores no entry with id `p` at the
indices it fills, and leaves the entries already present as they were,
whatever command and user the snapshot tuples carrying `p` have. -/
theorem iterate_dedup_by_id (USER_S : Nat) (S : LogList) (snapshot : List proc_t)
    (file : List Char) (p : Int) (hp : in_log S p = 1)
    (_hcap : (iterate USER_S snapshot S file).1.empty_pos ≤ LOG_S) :
    (iterate USER_S snapshot S file).2 = file ++ log_lines (unseen S [] snapshot) ∧
    (∀ t ∈ unseen S [] snapshot, t.tid ≠ p) ∧
    (∀ i, S.empty_pos ≤ i → i < (iterate USER_S snapshot S file).1.empty_pos →
      ((iterate USER_S snapshot S file).1.log i).tid ≠ p) ∧
    (∀ i, i < S.empty_pos → (iterate USER_S snapshot S file).1.log i = S.log i) ∧
    ((∀ t ∈ snapshot, t.tid = p) → iterate USER_S snapshot S file = (S, file)) := by
  refine ⟨iterate_output USER_S S snapshot [] S file (fun p => by simp), ?_, ?_,
    (iterate_frame USER_S snapshot S file).2, ?_⟩
  · intro t ht he
    have h0 := ((unseen_spec S snapshot []).1 t ht).1
    rw [he, hp] at h0
    exact absurd h0 (by decide)
  · intro i h1 h2 he
    have h0 := iterate_new_entries USER_S snapshot S file i h1 h2
    rw [he, hp] at h0
    exact absurd h0 (by decide)
  · intro hall
    exact iterate_known USER_S snapshot S file (fun t ht => by rw [hall t ht]; exact hp)

/-- Witness of C5: a table holding `{5,"a","u1"}` and the snapshot
`[{5,"b","u2"}]`: nothing is appended and the table is unchanged. -/
theorem iterate_dedup_by_id_witness :
    in_log (store_entry emptyList ⟨5, strncpy "a".toList CMD_S, strncpy "u1".toList 33⟩) 5 = 1 ∧
    (iterate 33 [⟨5, "b".toList, "u2".toList⟩]
      (store_entry emptyList ⟨5, strncpy "a".toList CMD_S, strncpy "u1".toList 33⟩)
      "5:a\t\tu1\n".toList).1.empty_pos ≤ LOG_S ∧
    (iterate 33 [⟨5, "b".toList, "u2".toList⟩]
      (store_entry emptyList ⟨5, strncpy "a".toList CMD_S, strncpy "u1".toList 33⟩)
      "5:a\t\tu1\n".toList).2 = "5:a\t\tu1\n".toList ∧
    (iterate 33 [⟨5, "b".toList, "u2".toList⟩]
      (store_entry emptyList ⟨5, strncpy "a".toList CMD_S, strncpy "u1".toList 33⟩)
      "5:a\t\tu1\n".toList).1.empty_pos = 1 :=
  have h := iterate_dedup_by_id 33
    (store_entry emptyList ⟨5, strncpy "a".toList CMD_S, strncpy "u1".toList 33⟩)
    [⟨5, "b".toList, "u2".toList⟩] "5:a\t\tu1\n".toList 5 (by decide) (by decide)
  ⟨by decide, by decide, congrArg Prod.snd (h.2.2.2.2 (by simp)),
    congrArg (fun r => r.1.empty_pos) (h.2.2.2.2 (by simp))⟩

/-! ## The uniqueness invariant (C9) -/

/-- C1, the program at the failing input. The log content is the line
`iterate` writes for the identity `{1,"sh","alice"}`. The first `fscanf` of
`sync_log` reads the line and, skipping the white space that ends it, meets
the end of the file; `feof` is then true at the first loop test, so the loop
ends without storing the identity: the table has 0 entries and `in_log 1` is
0, whatever the locals held. With two lines only the first identity is loaded. -/
theorem sync_log_loses_last_line (fuel : Nat) (v0 : Locals) :
    (iterate 33 [⟨1, "sh".toList, "alice".toList⟩] emptyList []).2 = "1:sh\t\talice\n".toList ∧
    (sync_log fuel "1:sh\t\talice\n".toList v0 emptyList).2 = true ∧
    (sync_log fuel "1:sh\t\talice\n".toList v0 emptyList).1.empty_pos = 0 ∧
    in_log (sync_log fuel "1:sh\t\talice\n".toList v0 emptyList).1 1 = 0 ∧
    (iterate 33 [⟨1, "sh".toList, "alice".toList⟩, ⟨2, "ls".toList, "bob".toList⟩]
      emptyList []).2 = "1:sh\t\talice\n2:ls\t\tbob\n".toList ∧
    (sync_log (fuel + 1) "1:sh\t\talice\n2:ls\t\tbob\n".toList v0 emptyList).2 = true ∧
    (sync_log (fuel + 1) "1:sh\t\talice\n2:ls\t\tbob\n".toList v0 emptyList).1.empty_pos = 1 ∧
    in_log (sync_log (fuel + 1) "1:sh\t\talice\n2:ls\t\tbob\n".toList v0 emptyList).1 2 = 0 := by
  have h1 : sync_log fuel "1:sh\t\talice\n".toList v0 emptyList = (emptyList, true) := by
    cases fuel <;> rfl
  have h2 : sync_log (fuel + 1) "1:sh\t\talice\n2:ls\t\tbob\n".toList v0 emptyList =
      (store_entry emptyList ⟨1, strncpy ("sh".toList ++ [NUL]) CMD_S,
        strncpy ("alice".toList ++ [NUL]) CMD_S⟩, true) := by
    cases fuel <;> rfl
  rw [h1, h2]
  exact ⟨by decide, rfl, rfl, by decide, by decide, rfl, rfl, by decide⟩

/-- C6, the program at the failing input. With `empty_pos = LOG_S` and an
unseen process id, neither `iterate` nor `sync_log` tests the index: both
return normally, with the new entry stored at index `LOG_S`, one past the last
element of `log[LOG_S]`, and `empty_pos = LOG_S + 1`. -/
theorem capacity_not_checked (v0 : Locals) :
    fullList.empty_pos = LOG_S ∧
    in_log fullList 24000 = 0 ∧
    (iterate 33 [⟨24000, "sh".toList, "alice".toList⟩] fullList []).1.empty_pos = LOG_S + 1 ∧
    ((iterate 33 [⟨24000, "sh".toList, "alice".toList⟩] fullList []).1.log LOG_S).tid = 24000 ∧
    (sync_log 2 "24000:sh\t\talice\n0:x\t\ty\n".toList v0 fullList).2 = true ∧
    (sync_log 2 "24000:sh\t\talice\n0:x\t\ty\n".toList v0 fullList).1.empty_pos = LOG_S + 1 ∧
    ((sync_log 2 "24000:sh\t\talice\n0:x\t\ty\n".toList v0 fullList).1.log LOG_S).tid = 24000 := by
  have h0 : in_log fullList 24000 = 0 := in_log_fullList 24000 (by norm_num [LOG_S])
  have h1 : iterate 33 [⟨24000, "sh".toList, "alice".toList⟩] fullList [] =
      (store_entry fullList ⟨24000, strncpy "sh".toList CMD_S, strncpy "alice".toList 33⟩,
        [] ++ fprintf_LOG_FORMAT 24000 "sh".toList "alice".toList) := by
    rw [iterate_cons_new 33 ⟨24000, "sh".toList, "alice".toList⟩ [] fullList [] h0, iterate_nil]
  have h2 : sync_log 2 "24000:sh\t\talice\n0:x\t\ty\n".toList v0 fullList =
      (store_entry fullList ⟨24000, strncpy ("sh".toList ++ [NUL]) CMD_S,
        strncpy ("alice".toList ++ [NUL]) CMD_S⟩, true) := by
    have hs : sync_log 2 "24000:sh\t\talice\n0:x\t\ty\n".toList v0 fullList =
        sync_loop 2 ⟨"0:x\t\ty\n".toList, false⟩
          ⟨24000, "sh".toList ++ [NUL], "alice".toList ++ [NUL]⟩ fullList := rfl
    rw [hs, sync_loop_succ_new 1 ⟨"0:x\t\ty\n".toList, false⟩
      ⟨24000, "sh".toList ++ [NUL], "alice".toList ++ [NUL]⟩ fullList rfl h0]
    exact sync_loop_eof 1 _ _ _ rfl
  rw [h1, h2]
  exact ⟨rfl, h0, rfl, rfl, rfl, rfl, rfl⟩

/-- C7, the program at the failing input. Every entry `sync_log` stores gets
`CMD_S` bytes written into its `user` field (the source passes `CMD_S`, not
`USER_S`, to the second `strncpy`), which is more than the field holds when
`USER_S < CMD_S`; and `fscanf`, whose `%s` has no field width, stores a token
of 70 characters and its NUL, 71 bytes, into the local buffer `cmd[CMD_S]`. -/
theorem sync_log_overflows_fields (v0 : Locals) :
    (∀ (fuel : Nat) (content : List Char) (v : Locals) (ls : LogList) (i : Nat),
      ls.empty_pos ≤ i → i < (sync_log fuel content v ls).1.empty_pos →
      ((sync_log fuel content v ls).1.log i).user.length = CMD_S) ∧
    (sync_log 2 "1:sh\t\talice\n2:ls\t\tbob\n".toList v0 emptyList).1.empty_pos = 1 ∧
    ((sync_log 2 "1:sh\t\talice\n2:ls\t\tbob\n".toList v0 emptyList).1.log 0).user.length = 64 ∧
    (∀ USER_S : Nat, USER_S < CMD_S →
      ¬ ((sync_log 2 "1:sh\t\talice\n2:ls\t\tbob\n".toList v0 emptyList).1.log 0).user.length
        ≤ USER_S) ∧
    (fscanf_LOG_FORMAT
      ⟨"1:".toList ++ List.replicate 70 'a' ++ "\t\tu\n2:ls\t\tbob\n".toList, false⟩ v0).2.cmd.length
      = 71 ∧
    ¬ 71 ≤ CMD_S := by
  have h2 : sync_log 2 "1:sh\t\talice\n2:ls\t\tbob\n".toList v0 emptyList =
      (store_entry emptyList ⟨1, strncpy ("sh".toList ++ [NUL]) CMD_S,
        strncpy ("alice".toList ++ [NUL]) CMD_S⟩, true) := rfl
  refine ⟨fun fuel content v ls i h1 h2 => (sync_loop_new_entries fuel _ _ ls i h1 h2).2, ?_, ?_,
    ?_, ?_, by decide⟩
  · rw [h2]; rfl
  · rw [h2]; rfl
  · intro USER_S hU
    rw [h2]
    have hl : ((store_entry emptyList ⟨1, strncpy ("sh".toList ++ [NUL]) CMD_S,
        strncpy ("alice".toList ++ [NUL]) CMD_S⟩).log 0).user.length = CMD_S := rfl
    simp only [hl]
    omega
  · rfl

/-- C8, the program at the failing input. The first line of the content lacks
its user field. The first `fscanf` takes `2:ls` of the next line as the user
and stops before `bob`; the entry `{1, "sh", "2:ls"}` is stored; every later
`fscanf` fails at `bob` without reading anything, so the end of the file is
never reached: for every bound on the number of passes the loop has not ended.
On the content `bob`, a line with no field at all, the first `fscanf` stores
nothing, the entry stored is made of the values the uninitialised locals
happen to hold, and the loop does not end either. -/
theorem sync_log_malformed_line (fuel : Nat) (v0 : Locals) :
    (sync_log fuel "1:sh\n2:ls\t\tbob\n3:vi\t\tcarol\n".toList v0 emptyList).2 = false ∧
    (sync_log (fuel + 1) "1:sh\n2:ls\t\tbob\n3:vi\t\tcarol\n".toList v0 emptyList).1.empty_pos
      = 1 ∧
    ((sync_log (fuel + 1) "1:sh\n2:ls\t\tbob\n3:vi\t\tcarol\n".toList v0 emptyList).1.log 0).tid
      = 1 ∧
    cstr ((sync_log (fuel + 1) "1:sh\n2:ls\t\tbob\n3:vi\t\tcarol\n".toList v0
      emptyList).1.log 0).cmd = "sh".toList ∧
    cstr ((sync_log (fuel + 1) "1:sh\n2:ls\t\tbob\n3:vi\t\tcarol\n".toList v0
      emptyList).1.log 0).user = "2:ls".toList ∧
    (sync_log fuel "bob\n".toList v0 emptyList).2 = false ∧
    (sync_log (fuel + 1) "bob\n".toList v0 emptyList).1.empty_pos = 1 ∧
    (sync_log (fuel + 1) "bob\n".toList v0 emptyList).1.log 0 =
      ⟨v0.tid, strncpy v0.cmd CMD_S, strncpy v0.user CMD_S⟩ := by
  have hb : ∀ n, sync_log n "bob\n".toList v0 emptyList =
      sync_loop n ⟨"bob\n".toList, false⟩ v0 emptyList := fun _ => rfl
  have hb1 : ∀ n, sync_log (n + 1) "bob\n".toList v0 emptyList =
      (store_entry emptyList ⟨v0.tid, strncpy v0.cmd CMD_S, strncpy v0.user CMD_S⟩, false) := by
    intro n
    rw [hb, sync_loop_succ_new n ⟨"bob\n".toList, false⟩ v0 emptyList rfl rfl]
    exact sync_loop_stuck ⟨"bob\n".toList, false⟩ v0 _ rfl rfl
      ((in_log_store_entry emptyList _ v0.tid).2 (Or.inr rfl)) n
  have hs : ∀ n, sync_log n "1:sh\n2:ls\t\tbob\n3:vi\t\tcarol\n".toList v0 emptyList =
      sync_loop n ⟨"bob\n3:vi\t\tcarol\n".toList, false⟩
        ⟨1, "sh".toList ++ [NUL], "2:ls".toList ++ [NUL]⟩ emptyList := fun _ => rfl
  have hstuck : ∀ n, sync_loop n ⟨"bob\n3:vi\t\tcarol\n".toList, false⟩
      ⟨1, "sh".toList ++ [NUL], "2:ls".toList ++ [NUL]⟩
      (store_entry emptyList ⟨1, strncpy ("sh".toList ++ [NUL]) CMD_S,
        strncpy ("2:ls".toList ++ [NUL]) CMD_S⟩) =
      (store_entry emptyList ⟨1, strncpy ("sh".toList ++ [NUL]) CMD_S,
        strncpy ("2:ls".toList ++ [NUL]) CMD_S⟩, false) :=
    sync_loop_stuck _ _ _ rfl rfl (by decide)
  have h1 : ∀ n, sync_log (n + 1) "1:sh\n2:ls\t\tbob\n3:vi\t\tcarol\n".toList v0 emptyList =
      (store_entry emptyList ⟨1, strncpy ("sh".toList ++ [NUL]) CMD_S,
        strncpy ("2:ls".toList ++ [NUL]) CMD_S⟩, false) := by
    intro n
    rw [hs, sync_loop_succ_new n ⟨"bob\n3:vi\t\tcarol\n".toList, false⟩
      ⟨1, "sh".toList ++ [NUL], "2:ls".toList ++ [NUL]⟩ emptyList rfl (by decide)]
    exact hstuck n
  refine ⟨?_, ?_, ?_, ?_, ?_, ?_, ?_, ?_⟩
  · cases fuel with
    | zero => rfl
    | succ n => rw [h1 n]
  · rw [h1 fuel]; rfl
  · rw [h1 fuel]; rfl
  · rw [h1 fuel]; decide
  · rw [h1 fuel]; decide
  · cases fuel with
    | zero => rfl
    | succ n => rw [hb1 n]
  · rw [hb1 fuel]; rfl
  · rw [hb1 fuel]; rfl

/-! ## Signal-driven state change (C10) -/

/-- C10. Signal-driven state change. `handle_signal` with SIGINT makes, in
this order, the release of the advisory lock (`lockf`, `close`, when a lock
descriptor is open), the deletion of the lock file (`unlink`, when a lock file
is named), the store `running = 0` and the call `signal(SIGINT, SIG_DFL)`;
with SIGHUP or SIGCHLD it leaves the running flag, the lock descriptor, the
lock and the lock file as they were. The poll loop tests `running` only
between passes: whenever the loop exits, the table and the log file are the
result of whole reconciliations, one for each pass that started, whatever
signals were delivered and wherever in the pass; a SIGINT handled during a
pass lets that pass run to its end and the loop exits at the next test. The
loop does not exit when a signal terminates the process in the middle of a
pass, which SIGTERM and a SIGINT that follows a handled SIGINT do. -/
theorem handle_signal_state_change (d : Daemon) :
    ((handle_signal SIGINT d).done =
        d.done ++ [Effect.fprintf_log_stream "Debug: stopping daemon ...\n"] ++
          (if d.pid_fd ≠ -1 then [Effect.lockf_F_ULOCK d.pid_fd, Effect.close d.pid_fd] else []) ++
          (match d.pid_file_name with
            | some name => [Effect.unlink name]
            | none => []) ++
          [Effect.store_running 0, Effect.signal SIGINT Disposition.SIG_DFL] ∧
      (handle_signal SIGINT d).running = 0 ∧
      (handle_signal SIGINT d).sigint = Disposition.SIG_DFL) ∧
    (∀ name : String, d.pid_fd ≠ -1 → d.pid_file_name = some name →
      (handle_signal SIGINT d).done =
        d.done ++ [Effect.fprintf_log_stream "Debug: stopping daemon ...\n",
          Effect.lockf_F_ULOCK d.pid_fd, Effect.close d.pid_fd, Effect.unlink name,
          Effect.store_running 0, Effect.signal SIGINT Disposition.SIG_DFL] ∧
      (handle_signal SIGINT d).lock_held = false ∧
      (handle_signal SIGINT d).lock_file = false) ∧
    (∀ sig : Int, sig = SIGHUP ∨ sig = SIGCHLD →
      (handle_signal sig d).running = d.running ∧
      (handle_signal sig d).pid_fd = d.pid_fd ∧
      (handle_signal sig d).pid_file_name = d.pid_file_name ∧
      (handle_signal sig d).lock_held = d.lock_held ∧
      (handle_signal sig d).lock_file = d.lock_file ∧
      (handle_signal sig d).sigint = d.sigint) ∧
    (∀ (oneshot : Bool) (USER_S : Nat) (ticks : List (List Step)) (sighup : Disposition)
      (ls : LogList) (file : List Char) (s1 : Process),
      main_loop oneshot USER_S ticks ⟨d, sighup, ls, file⟩ = (Outcome.exited, s1) →
      s1.daemon.running ≠ 1 ∧
      ∃ k, k ≤ ticks.length ∧
        (s1.ls, s1.file) = reconcile USER_S ((ticks.take k).map snapshot_of) ls file) ∧
    (∀ (oneshot : Bool) (USER_S : Nat) (t : List Step) (ts : List (List Step))
      (sighup : Disposition) (ls : LogList) (file : List Char) (s1 : Process),
      d.running = 1 → d.sigint = Disposition.handler → Step.signal Signal.SIGINT ∈ t →
      run_pass oneshot USER_S t ⟨d, sighup, ls, file⟩ = (s1, false) →
      main_loop oneshot USER_S (t :: ts) ⟨d, sighup, ls, file⟩ = (Outcome.exited, s1) ∧
      (s1.ls, s1.file) = iterate USER_S (snapshot_of t) ls file) ∧
    (∀ (oneshot : Bool) (USER_S : Nat) (t : List Step) (ts : List (List Step))
      (sighup : Disposition) (ls : LogList) (file : List Char) (s1 : Process),
      d.running = 1 → run_pass oneshot USER_S t ⟨d, sighup, ls, file⟩ = (s1, true) →
      main_loop oneshot USER_S (t :: ts) ⟨d, sighup, ls, file⟩ = (Outcome.killed, s1)) ∧
    (∀ (oneshot : Bool) (USER_S : Nat) (ticks : List (List Step)) (sighup : Disposition)
      (ls : LogList) (file : List Char),
      d.running ≠ 1 →
      main_loop oneshot USER_S ticks ⟨d, sighup, ls, file⟩ =
        (Outcome.exited, ⟨d, sighup, ls, file⟩)) ∧
    (∀ (oneshot : Bool) (sighup : Disposition) (ls : LogList) (file : List Char),
      deliver oneshot Signal.SIGTERM ⟨d, sighup, ls, file⟩ = none ∧
      (d.sigint = Disposition.SIG_DFL →
        deliver oneshot Signal.SIGINT ⟨d, sighup, ls, file⟩ = none) ∧
      (d.sigint = Disposition.handler →
        ∃ s1, deliver oneshot Signal.SIGINT ⟨d, sighup, ls, file⟩ = some s1 ∧
          deliver oneshot Signal.SIGINT s1 = none)) := by
  refine ⟨⟨?_, handle_signal_SIGINT_running d, ?_⟩, ?_, ?_, ?_, ?_, ?_, ?_, ?_⟩
  · cases hn : d.pid_file_name <;> by_cases hfd : d.pid_fd = -1 <;>
      simp [handle_signal, log_debug, release_lock, delete_lock_file, stop_running, hn, hfd]
  · simp [handle_signal]
  · intro name hfd hname
    simp [handle_signal, log_debug, release_lock, delete_lock_file, stop_running, hfd, hname]
  · intro sig hsig
    rcases hsig with h | h <;> subst h <;>
      simp [handle_signal, log_debug, SIGHUP, SIGINT, SIGCHLD]
  · intro oneshot USER_S ticks sighup ls file s1 h
    exact main_loop_exited oneshot USER_S ticks ⟨d, sighup, ls, file⟩ s1 h
  · intro oneshot USER_S t ts sighup ls file s1 hrun hdisp hint hpass
    have hstop := run_pass_SIGINT oneshot USER_S t ⟨d, sighup, ls, file⟩ s1 hpass hdisp hint
    have hne : s1.daemon.running ≠ 1 := by rw [hstop]; decide
    refine ⟨?_, run_pass_complete oneshot USER_S t ⟨d, sighup, ls, file⟩ s1 hpass⟩
    simp only [main_loop, hrun, if_true, hpass]
    exact main_loop_stopped oneshot USER_S ts s1 hne
  · intro oneshot USER_S t ts sighup ls file s1 hrun hpass
    simp only [main_loop, hrun, if_true, hpass]
  · intro oneshot USER_S ticks sighup ls file hrun
    exact main_loop_stopped oneshot USER_S ticks ⟨d, sighup, ls, file⟩ hrun
  · intro oneshot sighup ls file
    refine ⟨rfl, ?_, ?_⟩
    · intro h
      simp [deliver, h]
    · intro h
      have he : deliver oneshot Signal.SIGINT ⟨d, sighup, ls, file⟩ =
          some ⟨handle_signal SIGINT
            { d with sigint := if oneshot then Disposition.SIG_DFL else Disposition.handler },
            sighup, ls, file⟩ := by
        simp only [deliver, h]
      refine ⟨_, he, ?_⟩
      simp [deliver, handle_signal]

/-- An instance of C10: a running daemon that holds the lock on `/tmp/t.pid`
through descriptor 3. A SIGHUP and a SIGINT delivered during a pass over
`{1,"sh","alice"}` and `{2,"ls","bob"}` leave both lines in the log and the
loop exits before the next pass. A second SIGINT during the pass, or a second
SIGHUP when the handler is installed for one delivery, terminates the process
with the reconciliation half done. -/
theorem handle_signal_state_change_witness :
    (handle_signal SIGINT
      ⟨1, 3, some "/tmp/t.pid", true, true, Disposition.handler, []⟩).done =
      [Effect.fprintf_log_stream "Debug: stopping daemon ...\n", Effect.lockf_F_ULOCK 3,
        Effect.close 3, Effect.unlink "/tmp/t.pid", Effect.store_running 0,
        Effect.signal SIGINT Disposition.SIG_DFL] ∧
    (handle_signal SIGHUP ⟨1, 3, some "/tmp/t.pid", true, true, Disposition.handler, []⟩).running
      = 1 ∧
    (main_loop true 33
      [[Step.signal Signal.SIGHUP, Step.readproc ⟨1, "sh".toList, "alice".toList⟩,
          Step.signal Signal.SIGINT, Step.readproc ⟨2, "ls".toList, "bob".toList⟩],
        [Step.readproc ⟨3, "vi".toList, "carol".toList⟩]]
      ⟨⟨1, 3, some "/tmp/t.pid", true, true, Disposition.handler, []⟩, Disposition.handler,
        emptyList, []⟩).1 = Outcome.exited ∧
    (main_loop true 33
      [[Step.signal Signal.SIGHUP, Step.readproc ⟨1, "sh".toList, "alice".toList⟩,
          Step.signal Signal.SIGINT, Step.readproc ⟨2, "ls".toList, "bob".toList⟩],
        [Step.readproc ⟨3, "vi".toList, "carol".toList⟩]]
      ⟨⟨1, 3, some "/tmp/t.pid", true, true, Disposition.handler, []⟩, Disposition.handler,
        emptyList, []⟩).2.file = "1:sh\t\talice\n2:ls\t\tbob\n".toList ∧
    (main_loop true 33
      [[Step.readproc ⟨1, "sh".toList, "alice".toList⟩, Step.signal Signal.SIGINT,
          Step.signal Signal.SIGINT, Step.readproc ⟨2, "ls".toList, "bob".toList⟩]]
      ⟨⟨1, 3, some "/tmp/t.pid", true, true, Disposition.handler, []⟩, Disposition.handler,
        emptyList, []⟩).1 = Outcome.killed ∧
    (main_loop true 33
      [[Step.readproc ⟨1, "sh".toList, "alice".toList⟩, Step.signal Signal.SIGINT,
          Step.signal Signal.SIGINT, Step.readproc ⟨2, "ls".toList, "bob".toList⟩]]
      ⟨⟨1, 3, some "/tmp/t.pid", true, true, Disposition.handler, []⟩, Disposition.handler,
        emptyList, []⟩).2.file = "1:sh\t\talice\n".toList ∧
    (main_loop true 33
      [[Step.signal Signal.SIGHUP, Step.readproc ⟨1, "sh".toList, "alice".toList⟩,
          Step.signal Signal.SIGHUP, Step.readproc ⟨2, "ls".toList, "bob".toList⟩]]
      ⟨⟨1, 3, some "/tmp/t.pid", true, true, Disposition.handler, []⟩, Disposition.handler,
        emptyList, []⟩).1 = Outcome.killed ∧
    (main_loop true 33
      [[Step.readproc ⟨1, "sh".toList, "alice".toList⟩, Step.signal Signal.SIGTERM,
          Step.readproc ⟨2, "ls".toList, "bob".toList⟩]]
      ⟨⟨1, 3, some "/tmp/t.pid", true, true, Disposition.handler, []⟩, Disposition.handler,
        emptyList, []⟩).2.file = "1:sh\t\talice\n".toList :=
  have h := handle_signal_state_change
    ⟨1, 3, some "/tmp/t.pid", true, true, Disposition.handler, []⟩
  ⟨((h.2.1 "/tmp/t.pid" (by decide) rfl).1).trans (by decide),
    ((h.2.2.1 SIGHUP (Or.inl rfl)).1).trans rfl, by decide, by decide, by decide, by decide,
    by decide, by decide⟩

/-! ## Further properties: what the bootstrap does load, and truncation in iterate -/

/-- Bootstrap after `iterate`: for identities with pairwise distinct process
ids whose command and user are single tokens that fit the buffers of
`sync_log`, fewer than `LOG_S` of them before the last, the log `iterate`
writes from the empty table is the sequence of their lines, and `sync_log` on
that log keeps every store inside its object and ends (given one loop pass per
line but the last) with every identity but the last one in the table:
`empty_pos` is the number of lines minus one, `in_log` is 1 for each of the
first identities and 0 for the last. -/
theorem bootstrap_loads_all_but_last (USER_S : Nat) (ts : List proc_t) (last : proc_t)
    (fuel : Nat) (v0 : Locals) (hclean : ∀ t ∈ ts ++ [last], clean t ∧ fits USER_S t)
    (hd : ((ts ++ [last]).map proc_t.tid).Nodup) (hroom : ts.length < LOG_S)
    (hv0 : locals_fit USER_S v0 = true) (hfuel : ts.length ≤ fuel) :
    (iterate USER_S (ts ++ [last]) emptyList []).2 = log_lines (ts ++ [last]) ∧
    sync_log_in_bounds USER_S fuel (log_lines (ts ++ [last])) v0 emptyList = true ∧
    (sync_log fuel (log_lines (ts ++ [last])) v0 emptyList).2 = true ∧
    (sync_log fuel (log_lines (ts ++ [last])) v0 emptyList).1.empty_pos = ts.length ∧
    (∀ t ∈ ts, in_log (sync_log fuel (log_lines (ts ++ [last])) v0 emptyList).1 t.tid = 1) ∧
    in_log (sync_log fuel (log_lines (ts ++ [last])) v0 emptyList).1 last.tid = 0 := by
  have hempty : ∀ p, in_log emptyList p = 0 := fun _ => rfl
  have hout : (iterate USER_S (ts ++ [last]) emptyList []).2 = log_lines (ts ++ [last]) := by
    rw [iterate_output USER_S emptyList (ts ++ [last]) [] emptyList [] (fun p => by simp),
      unseen_nodup emptyList (ts ++ [last]) [] (fun x _ => hempty x.tid) (by simpa using hd)]
    rfl
  have hne : ts ++ [last] ≠ [] := by simp
  obtain ⟨t, l, hl⟩ := List.exists_cons_of_ne_nil hne
  have hlen : l.length = ts.length := by
    have := congrArg List.length hl
    simp at this
    omega
  have hdl : (t :: l).dropLast = ts := by rw [← hl]; exact List.dropLast_concat
  have hsync : sync_log fuel (log_lines (ts ++ [last])) v0 emptyList = (load emptyList ts, true) := by
    rw [hl, sync_log_lines t l emptyList fuel v0
      (by rw [← hl]; exact fun x hx => (hclean x hx).1) (by omega), hdl]
  have hin : sync_log_in_bounds USER_S fuel (log_lines (ts ++ [last])) v0 emptyList = true := by
    rw [hl]
    exact sync_log_in_bounds_lines USER_S t l emptyList fuel v0 hv0 (by rw [← hl]; exact hclean)
      (by rw [hlen]; simpa [emptyList] using hroom)
  have hnd : (ts.map proc_t.tid).Nodup ∧ last.tid ∉ ts.map proc_t.tid := by
    rw [List.map_append, List.map_cons, List.map_nil] at hd
    have h1 := List.nodup_append.1 hd
    refine ⟨h1.1, fun hm => ?_⟩
    exact h1.2.2 hm (List.mem_singleton.2 rfl)
  rw [hsync]
  refine ⟨hout, hin, rfl, ?_, ?_, ?_⟩
  · have := load_empty_pos ts emptyList (fun x _ => hempty x.tid) hnd.1
    simpa [emptyList] using this
  · intro x hx
    exact (in_log_load ts emptyList x.tid).2 (Or.inr ⟨x, hx, rfl⟩)
  · rcases in_log_cases (load emptyList ts) last.tid with h | h
    · exact h
    · rcases (in_log_load ts emptyList last.tid).1 h with h1 | ⟨x, hx, he⟩
      · rw [hempty] at h1
        exact absurd h1 (by decide)
      · exact absurd (List.mem_map.2 ⟨x, hx, he⟩) hnd.2

/-- An instance of the bootstrap after `iterate`: three identities, two loop
passes. -/
theorem bootstrap_loads_all_but_last_witness :
    (∀ t ∈ [(⟨1, "sh".toList, "alice".toList⟩ : proc_t), ⟨2, "ls".toList, "bob".toList⟩] ++
      [⟨3, "vi".toList, "carol".toList⟩], clean t ∧ fits 33 t) ∧
    (sync_log 2 (iterate 33 [⟨1, "sh".toList, "alice".toList⟩, ⟨2, "ls".toList, "bob".toList⟩,
      ⟨3, "vi".toList, "carol".toList⟩] emptyList []).2 ⟨0, [], []⟩ emptyList).1.empty_pos = 2 ∧
    in_log (sync_log 2 (iterate 33 [⟨1, "sh".toList, "alice".toList⟩,
      ⟨2, "ls".toList, "bob".toList⟩, ⟨3, "vi".toList, "carol".toList⟩] emptyList []).2
      ⟨0, [], []⟩ emptyList).1 3 = 0 :=
  have h := bootstrap_loads_all_but_last 33
    [⟨1, "sh".toList, "alice".toList⟩, ⟨2, "ls".toList, "bob".toList⟩]
    ⟨3, "vi".toList, "carol".toList⟩ 2 ⟨0, [], []⟩
    (by decide) (by decide) (by decide) (by decide) (by decide)
  have h1 : (iterate 33 [⟨1, "sh".toList, "alice".toList⟩, ⟨2, "ls".toList, "bob".toList⟩,
      ⟨3, "vi".toList, "carol".toList⟩] emptyList []).2 =
      log_lines ([⟨1, "sh".toList, "alice".toList⟩, ⟨2, "ls".toList, "bob".toList⟩] ++
        [⟨3, "vi".toList, "carol".toList⟩]) := h.1
  ⟨by decide, by rw [h1]; exact h.2.2.2.1, by rw [h1]; exact h.2.2.2.2.2⟩

/-- Truncation in `iterate`: for an unseen tuple, whatever the lengths of its
command and user, `iterate` stores the entry at index `empty_pos` with exactly
`CMD_S` bytes written to `cmd` and `USER_S` bytes to `user`; what is written
starts with the first `CMD_S` (`USER_S`) characters of the string, and a
string shorter than the field is stored whole. -/
theorem iterate_truncates (USER_S : Nat) (t : proc_t) (ls : LogList) (file : List Char)
    (hnew : in_log ls t.tid = 0) :
    ((iterate USER_S [t] ls file).1.log ls.empty_pos).tid = t.tid ∧
    ((iterate USER_S [t] ls file).1.log ls.empty_pos).cmd.length = CMD_S ∧
    ((iterate USER_S [t] ls file).1.log ls.empty_pos).user.length = USER_S ∧
    (cstr t.cmd).take CMD_S <+: ((iterate USER_S [t] ls file).1.log ls.empty_pos).cmd ∧
    (cstr t.euser).take USER_S <+: ((iterate USER_S [t] ls file).1.log ls.empty_pos).user ∧
    ((cstr t.cmd).length < CMD_S →
      cstr ((iterate USER_S [t] ls file).1.log ls.empty_pos).cmd = cstr t.cmd) ∧
    ((cstr t.euser).length < USER_S →
      cstr ((iterate USER_S [t] ls file).1.log ls.empty_pos).user = cstr t.euser) := by
  have he : (iterate USER_S [t] ls file).1.log ls.empty_pos =
      ⟨t.tid, strncpy t.cmd CMD_S, strncpy t.euser USER_S⟩ := by
    rw [iterate_cons_new USER_S t [] ls file hnew, iterate_nil]
    exact store_entry_log_new ls _
  rw [he]
  refine ⟨rfl, strncpy_length _ _, strncpy_length _ _, List.prefix_append _ _,
    List.prefix_append _ _, cstr_strncpy t.cmd CMD_S, cstr_strncpy t.euser USER_S⟩

/-- An instance of truncation in `iterate`: a command of 70 characters is
stored as its first 64 characters. -/
theorem iterate_truncates_witness :
    in_log emptyList 1 = 0 ∧
    ((iterate 33 [⟨1, List.replicate 70 'a', "alice".toList⟩] emptyList []).1.log 0).cmd
      = List.replicate 64 'a' ∧
    cstr ((iterate 33 [⟨1, List.replicate 70 'a', "alice".toList⟩] emptyList []).1.log 0).user
      = "alice".toList :=
  have h := iterate_truncates 33 ⟨1, List.replicate 70 'a', "alice".toList⟩ emptyList []
    (by decide)
  ⟨by decide, by decide, (h.2.2.2.2.2.2 (by decide)).trans (by decide)⟩

end ProcDaemon
